import Mathlib

/-!
Maximum-sum contiguous subarray: the four algorithms of `maxSubArray.cpp`.

A shallow embedding of `MaxSubArray<int>::algorithmA … algorithmD` and of the
`Result` record, followed by theorems about them.

Modelling conventions.

* `Type` is instantiated at `int`.  There are two layers of arithmetic.  The
  definitions `algorithmA`, `algorithmB`, `algorithmC`, `algorithmD` and their
  loops add in unbounded integers (`Int`); they describe the runs without
  overflow.  The definitions `algorithmA32`, `algorithmB32`, `algorithmC32`,
  `algorithmD32` and their loops perform the same additions in 32-bit `int`
  (`wrap32`); they describe every run.  The theorems `algorithmA32_exact`,
  `algorithmB32_exact`, `algorithmC32_exact` and `algorithmD32_exact` show that
  the two layers agree when no range sum overflows (`SumsFit`) and, for
  `algorithmC`, `high < 2^30`.
* An array argument is a `List Int`; the `length`, `low` and `high` arguments
  are separate `Int`s exactly as in the source.  Every read `array[k]` goes
  through `readAt`, which reports `Fault.outOfBounds` when `k` is not an index
  of the list (undefined behaviour in the source).
* A `for` loop whose body changes neither its counter nor its bound runs a
  number of times that is known on entry; it is a structural recursion on that
  number, the counter being threaded along.
* The local variables `start` and `end` of `algorithmA` and `algorithmB` are
  declared without an initial value.  They are `Option Int` here, `none` until
  first written; copying a `none` into the result is `Fault.uninitialised`.
* `algorithmC` recurses; `algorithmCFuel` bounds the recursion depth by a fuel
  argument and `algorithmC` supplies `high - low + 1`, which is enough on every
  range with `low ≤ high`.
-/

namespace MaxSubArray

/-- Ways in which a run of the source leaves defined behaviour or fails to
return. -/
inductive Fault where
  | outOfBounds
  | uninitialised
  | outOfFuel
deriving DecidableEq, Repr

/-- The record `Result<Type>` of the source; `end_` is its field `end`. -/
structure Result where
  value : Int
  start : Int
  end_ : Int
deriving DecidableEq, Repr

/-- The read `array[k]`. -/
def readAt (array : List Int) (k : Int) : Except Fault Int :=
  if k < 0 then .error .outOfBounds
  else
    match array[k.toNat]? with
    | some v => .ok v
    | none => .error .outOfBounds

/-- The variables `maxSum`, `start`, `end` of `algorithmA` and `algorithmB`. -/
structure Best where
  maxSum : Int
  start : Option Int
  end_ : Option Int
deriving DecidableEq, Repr

/-- The test `if ( sum > maxSum ) { maxSum = sum; start = i; end = j; }`. -/
def Best.update (b : Best) (sum i j : Int) : Best :=
  if sum > b.maxSum then ⟨sum, some i, some j⟩ else b

/-- The tail shared by `algorithmA` and `algorithmB`: the sentinel test
`if ( maxSum < 0 )` and the copy into `result`. -/
def Best.finish (b : Best) (length : Int) : Except Fault Result :=
  if b.maxSum < 0 then .ok ⟨0, length, 0⟩
  else
    match b.start, b.end_ with
    | some st, some en => .ok ⟨b.maxSum, st, en⟩
    | _, _ => .error .uninitialised

/-- The innermost loop of `algorithmA`, `for ( k = …; k <= j; k++ ) sum += array[ k ]`,
with `cnt` iterations left, counter `k` and accumulator `sum`. -/
def algorithmA.sumLoop (array : List Int) : Nat → Int → Int → Except Fault Int
  | 0, _, sum => .ok sum
  | cnt + 1, k, sum =>
    match readAt array k with
    | .error e => .error e
    | .ok v => algorithmA.sumLoop array cnt (k + 1) (sum + v)

/-- The middle loop of `algorithmA`, `for ( j = …; j < length; j++ )`, with `cnt`
iterations left and counter `j`. -/
def algorithmA.loopJ (array : List Int) (i : Int) : Nat → Int → Best → Except Fault Best
  | 0, _, b => .ok b
  | cnt + 1, j, b =>
    match algorithmA.sumLoop array (j + 1 - i).toNat i 0 with
    | .error e => .error e
    | .ok sum => algorithmA.loopJ array i cnt (j + 1) (b.update sum i j)

/-- The outer loop of `algorithmA`, `for ( i = …; i < length; i++ )`, with `cnt`
iterations left and counter `i`. -/
def algorithmA.loopI (array : List Int) (length : Int) : Nat → Int → Best → Except Fault Best
  | 0, _, b => .ok b
  | cnt + 1, i, b =>
    match algorithmA.loopJ array i (length - i).toNat i b with
    | .error e => .error e
    | .ok b' => algorithmA.loopI array length cnt (i + 1) b'

/-- `MaxSubArray::algorithmA`. -/
def algorithmA (array : List Int) (length : Int) : Except Fault Result :=
  match algorithmA.loopI array length length.toNat 0 ⟨-1, none, none⟩ with
  | .error e => .error e
  | .ok b => b.finish length

/-- The inner loop of `algorithmB`, `for ( j = …; j < length; j++ )`, with `cnt`
iterations left, counter `j` and running `sum`. -/
def algorithmB.loopJ (array : List Int) (i : Int) : Nat → Int → Int → Best → Except Fault Best
  | 0, _, _, b => .ok b
  | cnt + 1, j, sum, b =>
    match readAt array j with
    | .error e => .error e
    | .ok v => algorithmB.loopJ array i cnt (j + 1) (sum + v) (b.update (sum + v) i j)

/-- The outer loop of `algorithmB`. -/
def algorithmB.loopI (array : List Int) (length : Int) : Nat → Int → Best → Except Fault Best
  | 0, _, b => .ok b
  | cnt + 1, i, b =>
    match algorithmB.loopJ array i (length - i).toNat i 0 b with
    | .error e => .error e
    | .ok b' => algorithmB.loopI array length cnt (i + 1) b'

/-- `MaxSubArray::algorithmB`. -/
def algorithmB (array : List Int) (length : Int) : Except Fault Result :=
  match algorithmB.loopI array length length.toNat 0 ⟨-1, none, none⟩ with
  | .error e => .error e
  | .ok b => b.finish length

/-- The variables of one crossing scan of `algorithmC`: the running `sum`, the
best sum so far (`leftMax` or `rightMax`) and where it occurred (`leftIdx` or
`rightIdx`). -/
structure Scan where
  sum : Int
  max : Int
  idx : Int
deriving DecidableEq, Repr

/-- The body shared by both crossing scans:
`sum += array[ i ]; if ( sum > max ) { max = sum; idx = i; }`. -/
def Scan.step (sc : Scan) (v i : Int) : Scan :=
  if sc.sum + v > sc.max then ⟨sc.sum + v, sc.sum + v, i⟩ else ⟨sc.sum + v, sc.max, sc.idx⟩

/-- The first loop of `algorithmC`, `for ( i = center; i >= low; i-- )`, with
`cnt` iterations left and counter `i`. -/
def algorithmC.leftLoop (array : List Int) : Nat → Int → Scan → Except Fault Scan
  | 0, _, sc => .ok sc
  | cnt + 1, i, sc =>
    match readAt array i with
    | .error e => .error e
    | .ok v => algorithmC.leftLoop array cnt (i - 1) (sc.step v i)

/-- The second loop of `algorithmC`, `for ( i = center + 1; i <= high; i++ )`. -/
def algorithmC.rightLoop (array : List Int) : Nat → Int → Scan → Except Fault Scan
  | 0, _, sc => .ok sc
  | cnt + 1, i, sc =>
    match readAt array i with
    | .error e => .error e
    | .ok v => algorithmC.rightLoop array cnt (i + 1) (sc.step v i)

/-- The candidate `middle` of `algorithmC` from the two finished scans, with its
normalisation `if ( middle.value < 0 )`. -/
def algorithmC.middle (low high : Int) (l r : Scan) : Result :=
  if l.max + r.max < 0 then ⟨0, high + 1, low⟩ else ⟨l.max + r.max, l.idx, r.idx⟩

/-- The three `return`s that end `algorithmC`. -/
def algorithmC.merge (left middle right : Result) : Result :=
  if left.value > right.value ∧ left.value > middle.value then left
  else if right.value > middle.value then right
  else if left.value > middle.value then left else middle

/-- `MaxSubArray::algorithmC` with the recursion depth bounded by `fuel`.  The
division of `int`s truncates (`Int.tdiv`). -/
def algorithmCFuel (array : List Int) : Nat → Int → Int → Except Fault Result
  | 0, _, _ => .error .outOfFuel
  | fuel + 1, low, high =>
    let center := Int.tdiv (low + high) 2
    if low = high then
      match readAt array low with
      | .error e => .error e
      | .ok v => .ok ⟨v, low, high⟩
    else
      match algorithmC.leftLoop array (center - low + 1).toNat center ⟨0, -1, center⟩ with
      | .error e => .error e
      | .ok l =>
        match algorithmC.rightLoop array (high - center).toNat (center + 1) ⟨0, -1, center + 1⟩ with
        | .error e => .error e
        | .ok r =>
          match algorithmCFuel array fuel low center with
          | .error e => .error e
          | .ok left =>
            match algorithmCFuel array fuel (center + 1) high with
            | .error e => .error e
            | .ok right => .ok (algorithmC.merge left (algorithmC.middle low high l r) right)

/-- `MaxSubArray::algorithmC`, with fuel for a range of `high - low + 1` elements. -/
def algorithmC (array : List Int) (low high : Int) : Except Fault Result :=
  algorithmCFuel array ((high - low).toNat + 1) low high

/-- The variables of the loop of `algorithmD`. -/
structure Kadane where
  maxSum : Int
  runningSum : Int
  left : Int
  right : Int
  currentLeft : Int
deriving DecidableEq, Repr

/-- One iteration of the loop of `algorithmD` at index `i` reading `v = array[i]`. -/
def Kadane.step (st : Kadane) (v i : Int) : Kadane :=
  let st1 : Kadane :=
    if v > st.runningSum + v then { st with runningSum := v, currentLeft := i }
    else { st with runningSum := st.runningSum + v }
  if st1.runningSum > st1.maxSum then
    { st1 with left := st1.currentLeft, right := i, maxSum := st1.runningSum }
  else st1

/-- The loop of `algorithmD`, `for ( i = …; i < length; i++ )`, with `cnt`
iterations left and counter `i`. -/
def algorithmD.loop (array : List Int) : Nat → Int → Kadane → Except Fault Kadane
  | 0, _, st => .ok st
  | cnt + 1, i, st =>
    match readAt array i with
    | .error e => .error e
    | .ok v => algorithmD.loop array cnt (i + 1) (st.step v i)

/-- The tail of `algorithmD`: the sentinel test and the copy into `result`. -/
def Kadane.finish (st : Kadane) (length : Int) : Result :=
  if st.maxSum < 0 then ⟨0, length, 0⟩ else ⟨st.maxSum, st.left, st.right⟩

/-- `MaxSubArray::algorithmD`. -/
def algorithmD (array : List Int) (length : Int) : Except Fault Result :=
  match readAt array 0 with
  | .error e => .error e
  | .ok a0 =>
    match algorithmD.loop array (length - 1).toNat 1 ⟨a0, a0, 0, 0, 0⟩ with
    | .error e => .error e
    | .ok st => .ok (st.finish length)

/-! ### Specification vocabulary -/

/-- The sum `array[i] + … + array[j]` of the inclusive range `[i, j]`. -/
def rangeSum (array : List Int) (i j : Nat) : Int :=
  ((array.drop i).take (j + 1 - i)).sum

/-- The sum of the first `k` elements. -/
def prefixSum (array : List Int) (k : Nat) : Int :=
  (array.take k).sum

/-- `M` is the maximum of `array[i] + … + array[j]` over all `i ≤ j < array.length`:
some range attains it and no range exceeds it. -/
def IsMaxSubSum (array : List Int) (M : Int) : Prop :=
  (∃ j < array.length, ∃ i ≤ j, rangeSum array i j = M) ∧
    ∀ j < array.length, ∀ i ≤ j, rangeSum array i j ≤ M

instance (array : List Int) (M : Int) : Decidable (IsMaxSubSum array M) := by
  unfold IsMaxSubSum; infer_instance

/-- The result `r` names a real range of an array of `n` elements whose sum is
`r.value`. -/
def Result.IsRange (r : Result) (array : List Int) (n : Int) : Prop :=
  0 ≤ r.start ∧ r.start ≤ r.end_ ∧ r.end_ < n ∧
    rangeSum array r.start.toNat r.end_.toNat = r.value

/-- The first test input of the source, `test1`. -/
def test1 : List Int := [1, 4, -9, 8, 1, 3, 3, 1, -1, -4, -6, 2, 8, 19, -10, -11]

/-- The last test input of the source, `test9`. -/
def test9 : List Int := [-1, -3, -5]

deriving instance DecidableEq for Except

/-! ### Invariants used in the proofs -/

/-- The sum of the inclusive range `[i, j]` as a difference of prefix sums. -/
def segSum (array : List Int) (i j : Nat) : Int :=
  prefixSum array (j + 1) - prefixSum array i

/-- The pair `(i', j')` is visited before `(i, j)` by the nested loops of
`algorithmA` and `algorithmB`. -/
def Before (i j i' j' : Nat) : Prop :=
  i' < i ∨ (i' = i ∧ j' < j)

/-- What `maxSum`, `start`, `end` hold when the nested loops are about to visit
the pair `(i, j)`: `maxSum` bounds every sum visited so far, and either nothing
has been recorded or the recorded pair is the first visited one with the
greatest sum, which is not negative. -/
structure Seen (a : List Int) (n i j : Nat) (b : Best) : Prop where
  bound : ∀ i' j', i' ≤ j' → j' < n → Before i j i' j' → segSum a i' j' ≤ b.maxSum
  src : b = ⟨-1, none, none⟩ ∨
    ∃ i' j', i' ≤ j' ∧ j' < n ∧ Before i j i' j' ∧
      b = ⟨segSum a i' j', some (i' : Int), some (j' : Int)⟩ ∧ 0 ≤ segSum a i' j' ∧
      ∀ i'' j'', i'' ≤ j'' → j'' < n → Before i' j' i'' j'' → segSum a i'' j'' < segSum a i' j'

/-- What the variables of `algorithmD` hold once the indices below `i` have been
processed: `runningSum` is the greatest sum of a range ending at `i - 1`, attained
from `currentLeft`, and `maxSum` is the greatest sum of a range below `i`,
attained by `[left, right]`. -/
def KInv (a : List Int) (i : Nat) (st : Kadane) : Prop :=
  ∃ cl l r : Nat, st.currentLeft = cl ∧ st.left = l ∧ st.right = r ∧
    cl < i ∧ l ≤ r ∧ r < i ∧
    st.runningSum = prefixSum a i - prefixSum a cl ∧
    (∀ l' < i, prefixSum a i - prefixSum a l' ≤ st.runningSum) ∧
    st.maxSum = segSum a l r ∧
    ∀ l' r', l' ≤ r' → r' < i → segSum a l' r' ≤ st.maxSum

/-- What the first scan of `algorithmC` holds once the indices `m, …, c` have
been added, `c` being `center`: the running sum of `[m, c]`, a bound on every sum
of a range `[l, c]` with `m ≤ l`, and either no update yet or the index of a
recorded sum that is not negative. -/
def LInv (a : List Int) (c m : Nat) (sc : Scan) : Prop :=
  sc.sum = prefixSum a (c + 1) - prefixSum a m ∧
    (∀ l, m ≤ l → l ≤ c → prefixSum a (c + 1) - prefixSum a l ≤ sc.max) ∧
    ((sc.max = -1 ∧ sc.idx = c) ∨
      ∃ l : Nat, m ≤ l ∧ l ≤ c ∧ sc.idx = l ∧
        sc.max = prefixSum a (c + 1) - prefixSum a l ∧ 0 ≤ sc.max)

/-- What the second scan of `algorithmC` holds once the indices `c + 1, …, m - 1`
have been added. -/
def RInv (a : List Int) (c m : Nat) (sc : Scan) : Prop :=
  sc.sum = prefixSum a m - prefixSum a (c + 1) ∧
    (∀ r, c + 1 ≤ r → r < m → prefixSum a (r + 1) - prefixSum a (c + 1) ≤ sc.max) ∧
    ((sc.max = -1 ∧ sc.idx = (c : Int) + 1) ∨
      ∃ r : Nat, c + 1 ≤ r ∧ r < m ∧ sc.idx = r ∧
        sc.max = prefixSum a (r + 1) - prefixSum a (c + 1) ∧ 0 ≤ sc.max)

/-- What `algorithmC` returns on the range `[low, high]`: a value that bounds
every sum of the range and is not negative when the range has two elements or
more, carried either by the sentinel of this very range or by a range inside
`[low, high]` with that sum. -/
def CPost (a : List Int) (low high : Nat) (r : Result) : Prop :=
  (∀ i j, low ≤ i → i ≤ j → j ≤ high → segSum a i j ≤ r.value) ∧
    (low < high → 0 ≤ r.value) ∧
    ((low < high ∧ r = ⟨0, (high : Int) + 1, low⟩) ∨
      ∃ i j : Nat, low ≤ i ∧ i ≤ j ∧ j ≤ high ∧ r = ⟨segSum a i j, i, j⟩)

/-- What `algorithmA`, `algorithmB` and `algorithmD` return on the first `n`
elements: the sentinel when every sum is negative, and otherwise a range whose
sum is not negative and is the greatest. -/
def Post (a : List Int) (n : Nat) (r : Result) : Prop :=
  (r = ⟨0, n, 0⟩ ∧ ∀ i j, i ≤ j → j < n → segSum a i j < 0) ∨
    ∃ i j, i ≤ j ∧ j < n ∧ r = ⟨segSum a i j, i, j⟩ ∧ 0 ≤ segSum a i j ∧
      ∀ i' j', i' ≤ j' → j' < n → segSum a i' j' ≤ segSum a i j

/-! ### Vocabulary for ranges inside the array -/

/-- `M` is the maximum of `array[i] + … + array[j]` over `low ≤ i ≤ j ≤ high`. -/
def IsMaxRangeSum (array : List Int) (low high : Nat) (M : Int) : Prop :=
  (∃ j ≤ high, ∃ i ≤ j, low ≤ i ∧ rangeSum array i j = M) ∧
    ∀ j ≤ high, ∀ i ≤ j, low ≤ i → rangeSum array i j ≤ M

instance (array : List Int) (low high : Nat) (M : Int) :
    Decidable (IsMaxRangeSum array low high M) := by
  unfold IsMaxRangeSum; infer_instance

/-- `M` is the maximum of `array[i] + … + array[c]` over `low ≤ i ≤ c`: the
greatest sum of a range that ends at `c` and starts at `low` or later. -/
def IsMaxEndingAt (array : List Int) (low c : Nat) (M : Int) : Prop :=
  (∃ i ≤ c, low ≤ i ∧ rangeSum array i c = M) ∧
    ∀ i ≤ c, low ≤ i → rangeSum array i c ≤ M

instance (array : List Int) (low c : Nat) (M : Int) :
    Decidable (IsMaxEndingAt array low c M) := by
  unfold IsMaxEndingAt; infer_instance

/-- `M` is the maximum of `array[c] + … + array[j]` over `c ≤ j ≤ high`: the
greatest sum of a range that starts at `c` and ends at `high` or earlier. -/
def IsMaxStartingAt (array : List Int) (c high : Nat) (M : Int) : Prop :=
  (∃ j ≤ high, c ≤ j ∧ rangeSum array c j = M) ∧
    ∀ j ≤ high, c ≤ j → rangeSum array c j ≤ M

instance (array : List Int) (c high : Nat) (M : Int) :
    Decidable (IsMaxStartingAt array c high M) := by
  unfold IsMaxStartingAt; infer_instance

/-- The elements `array[low], …, array[high]` as an array of their own. -/
def subArray (array : List Int) (low high : Nat) : List Int :=
  (array.drop low).take (high + 1 - low)

/-- The first state of the loop of `algorithmD`, from `a0 = array[0]`. -/
def Kadane.start (a0 : Int) : Kadane :=
  ⟨a0, a0, 0, 0, 0⟩

/-- What the tie-breaks of `algorithmD` guarantee once the indices below `i` have
been processed: no earlier start than `currentLeft` attains `runningSum`, no range
that ends before `right` attains `maxSum`, and no range that ends at `right` and
starts before `left` attains it. -/
def KTie (a : List Int) (i : Nat) (st : Kadane) : Prop :=
  ∃ cl l r : Nat, st.currentLeft = cl ∧ st.left = l ∧ st.right = r ∧
    (∀ l' < cl, prefixSum a i - prefixSum a l' < st.runningSum) ∧
    (∀ l' r', l' ≤ r' → r' < r → segSum a l' r' < st.maxSum) ∧
    ∀ l' < l, segSum a l' r < st.maxSum

/-- What `algorithmA` and `algorithmB` return on the first `n` elements, with
their tie-break: the sentinel when every sum is negative, and otherwise the first
pair in loop order whose sum is the greatest. -/
def PostFirst (a : List Int) (n : Nat) (r : Result) : Prop :=
  (r = ⟨0, n, 0⟩ ∧ ∀ i j, i ≤ j → j < n → segSum a i j < 0) ∨
    ∃ i j, i ≤ j ∧ j < n ∧ r = ⟨segSum a i j, i, j⟩ ∧ 0 ≤ segSum a i j ∧
      (∀ i' j', i' ≤ j' → j' < n → segSum a i' j' ≤ segSum a i j) ∧
      ∀ i' j', i' ≤ j' → j' < n → Before i j i' j' → segSum a i' j' < segSum a i j

/-! ### The same algorithms in 32-bit `int` arithmetic

The definitions above add in unbounded integers.  The ones below are the same
source lines with every addition that the source performs in `int` reduced by
`wrap32`, the two's-complement wrap-around at 32 bits.  Comparisons, reads and
loop structure are unchanged, so `Best.update`, `Best.finish`, `Kadane.finish`
and `algorithmC.merge` are shared.

Loop counters.  In `algorithmA`, `algorithmB` and `algorithmD` a counter runs
from its initial value up to a bound that is an `int` and stops there, so it
never leaves the range of `int`.  The counter of the first scan of `algorithmC`
runs downwards and reads a negative index, a fault, before it could pass the
least `int`.  The counter of the second scan passes the greatest `int` only when
`high` is that greatest `int`: the test `i <= high` then never fails, the counter
wraps to the least `int` and the next read is at a negative index; one more
iteration with a wrapped counter is that read. -/

/-- The least value of an `int`. -/
def INT_MIN : Int := -2147483648

/-- The greatest value of an `int`. -/
def INT_MAX : Int := 2147483647

/-- The `int` that holds the exact result `x` after wrap-around at 32 bits. -/
def wrap32 (x : Int) : Int :=
  (x + 2147483648) % 4294967296 - 2147483648

/-- The integer `x` is a value of `int`. -/
def FitsInt (x : Int) : Prop :=
  INT_MIN ≤ x ∧ x ≤ INT_MAX

instance (x : Int) : Decidable (FitsInt x) := by
  unfold FitsInt; infer_instance

/-- No overflow among the sums of the ranges `[i, j]` with `low ≤ i ≤ j < n`:
each of them is a value of `int`. -/
def SumsFit (array : List Int) (low n : Nat) : Prop :=
  ∀ j < n, ∀ i ≤ j, low ≤ i → FitsInt (rangeSum array i j)

instance (array : List Int) (low n : Nat) : Decidable (SumsFit array low n) := by
  unfold SumsFit; infer_instance

/-- The innermost loop of `algorithmA` with `sum += array[ k ]` in `int`. -/
def algorithmA32.sumLoop (array : List Int) : Nat → Int → Int → Except Fault Int
  | 0, _, sum => .ok sum
  | cnt + 1, k, sum =>
    match readAt array k with
    | .error e => .error e
    | .ok v => algorithmA32.sumLoop array cnt (k + 1) (wrap32 (sum + v))

/-- The middle loop of `algorithmA` over the `int` sums. -/
def algorithmA32.loopJ (array : List Int) (i : Int) : Nat → Int → Best → Except Fault Best
  | 0, _, b => .ok b
  | cnt + 1, j, b =>
    match algorithmA32.sumLoop array (j + 1 - i).toNat i 0 with
    | .error e => .error e
    | .ok sum => algorithmA32.loopJ array i cnt (j + 1) (b.update sum i j)

/-- The outer loop of `algorithmA` over the `int` sums. -/
def algorithmA32.loopI (array : List Int) (length : Int) : Nat → Int → Best → Except Fault Best
  | 0, _, b => .ok b
  | cnt + 1, i, b =>
    match algorithmA32.loopJ array i (length - i).toNat i b with
    | .error e => .error e
    | .ok b' => algorithmA32.loopI array length cnt (i + 1) b'

/-- `MaxSubArray<int>::algorithmA` in `int` arithmetic. -/
def algorithmA32 (array : List Int) (length : Int) : Except Fault Result :=
  match algorithmA32.loopI array length length.toNat 0 ⟨-1, none, none⟩ with
  | .error e => .error e
  | .ok b => b.finish length

/-- The inner loop of `algorithmB` with `sum += array[ j ]` in `int`. -/
def algorithmB32.loopJ (array : List Int) (i : Int) : Nat → Int → Int → Best → Except Fault Best
  | 0, _, _, b => .ok b
  | cnt + 1, j, sum, b =>
    match readAt array j with
    | .error e => .error e
    | .ok v =>
      algorithmB32.loopJ array i cnt (j + 1) (wrap32 (sum + v))
        (b.update (wrap32 (sum + v)) i j)

/-- The outer loop of `algorithmB` over the `int` sums. -/
def algorithmB32.loopI (array : List Int) (length : Int) : Nat → Int → Best → Except Fault Best
  | 0, _, b => .ok b
  | cnt + 1, i, b =>
    match algorithmB32.loopJ array i (length - i).toNat i 0 b with
    | .error e => .error e
    | .ok b' => algorithmB32.loopI array length cnt (i + 1) b'

/-- `MaxSubArray<int>::algorithmB` in `int` arithmetic. -/
def algorithmB32 (array : List Int) (length : Int) : Except Fault Result :=
  match algorithmB32.loopI array length length.toNat 0 ⟨-1, none, none⟩ with
  | .error e => .error e
  | .ok b => b.finish length

/-- The body of both crossing scans with `sum += array[ i ]` in `int`. -/
def Scan.step32 (sc : Scan) (v i : Int) : Scan :=
  if wrap32 (sc.sum + v) > sc.max then ⟨wrap32 (sc.sum + v), wrap32 (sc.sum + v), i⟩
  else ⟨wrap32 (sc.sum + v), sc.max, sc.idx⟩

/-- The first loop of `algorithmC` over the `int` sums. -/
def algorithmC32.leftLoop (array : List Int) : Nat → Int → Scan → Except Fault Scan
  | 0, _, sc => .ok sc
  | cnt + 1, i, sc =>
    match readAt array i with
    | .error e => .error e
    | .ok v => algorithmC32.leftLoop array cnt (i - 1) (sc.step32 v i)

/-- The second loop of `algorithmC` over the `int` sums, its counter an `int`. -/
def algorithmC32.rightLoop (array : List Int) : Nat → Int → Scan → Except Fault Scan
  | 0, _, sc => .ok sc
  | cnt + 1, i, sc =>
    match readAt array i with
    | .error e => .error e
    | .ok v => algorithmC32.rightLoop array cnt (wrap32 (i + 1)) (sc.step32 v i)

/-- The candidate `middle` of `algorithmC` with `leftMax + rightMax` and
`high + 1` in `int`. -/
def algorithmC32.middle (low high : Int) (l r : Scan) : Result :=
  if wrap32 (l.max + r.max) < 0 then ⟨0, wrap32 (high + 1), low⟩
  else ⟨wrap32 (l.max + r.max), l.idx, r.idx⟩

/-- `MaxSubArray<int>::algorithmC` in `int` arithmetic, the recursion depth
bounded by `fuel`: `low + high` wraps before the truncating division.  The
`center` is half of an `int`, so `center + 1` is exact. -/
def algorithmC32Fuel (array : List Int) : Nat → Int → Int → Except Fault Result
  | 0, _, _ => .error .outOfFuel
  | fuel + 1, low, high =>
    let center := Int.tdiv (wrap32 (low + high)) 2
    if low = high then
      match readAt array low with
      | .error e => .error e
      | .ok v => .ok ⟨v, low, high⟩
    else
      match algorithmC32.leftLoop array (center - low + 1).toNat center ⟨0, -1, center⟩ with
      | .error e => .error e
      | .ok l =>
        match algorithmC32.rightLoop array
            (if high = INT_MAX then (high - center).toNat + 1 else (high - center).toNat)
            (center + 1) ⟨0, -1, center + 1⟩ with
        | .error e => .error e
        | .ok r =>
          match algorithmC32Fuel array fuel low center with
          | .error e => .error e
          | .ok left =>
            match algorithmC32Fuel array fuel (center + 1) high with
            | .error e => .error e
            | .ok right =>
              .ok (algorithmC.merge left (algorithmC32.middle low high l r) right)

/-- `MaxSubArray<int>::algorithmC` in `int` arithmetic, with fuel for a range of
`high - low + 1` elements. -/
def algorithmC32 (array : List Int) (low high : Int) : Except Fault Result :=
  algorithmC32Fuel array ((high - low).toNat + 1) low high

/-- One iteration of the loop of `algorithmD` with `runningSum + array[ i ]` in
`int`. -/
def Kadane.step32 (st : Kadane) (v i : Int) : Kadane :=
  let st1 : Kadane :=
    if v > wrap32 (st.runningSum + v) then { st with runningSum := v, currentLeft := i }
    else { st with runningSum := wrap32 (st.runningSum + v) }
  if st1.runningSum > st1.maxSum then
    { st1 with left := st1.currentLeft, right := i, maxSum := st1.runningSum }
  else st1

/-- The loop of `algorithmD` over the `int` sums. -/
def algorithmD32.loop (array : List Int) : Nat → Int → Kadane → Except Fault Kadane
  | 0, _, st => .ok st
  | cnt + 1, i, st =>
    match readAt array i with
    | .error e => .error e
    | .ok v => algorithmD32.loop array cnt (i + 1) (st.step32 v i)

/-- `MaxSubArray<int>::algorithmD` in `int` arithmetic. -/
def algorithmD32 (array : List Int) (length : Int) : Except Fault Result :=
  match readAt array 0 with
  | .error e => .error e
  | .ok a0 =>
    match algorithmD32.loop array (length - 1).toNat 1 ⟨a0, a0, 0, 0, 0⟩ with
    | .error e => .error e
    | .ok st => .ok (st.finish length)

/-! ### Reads and sums -/

theorem prefixSum_zero (a : List Int) : prefixSum a 0 = 0 := by
  simp [prefixSum]

theorem prefixSum_succ (a : List Int) (k : Nat) (h : k < a.length) :
    prefixSum a (k + 1) = prefixSum a k + a[k] := by
  unfold prefixSum
  rw [List.take_succ, List.sum_append]
  simp [List.getElem?_eq_getElem h]

theorem rangeSum_eq_prefixSum (a : List Int) (i j : Nat) (h : i ≤ j + 1) :
    rangeSum a i j = prefixSum a (j + 1) - prefixSum a i := by
  unfold rangeSum prefixSum
  have h1 : j + 1 = i + (j + 1 - i) := by omega
  conv_rhs => rw [h1, List.take_add, List.sum_append]
  ring

theorem readAt_natCast (a : List Int) (k : Nat) (h : k < a.length) :
    readAt a (k : Int) = .ok (prefixSum a (k + 1) - prefixSum a k) := by
  unfold readAt
  have h0 : ¬ ((k : Int) < 0) := by omega
  rw [if_neg h0, Int.toNat_natCast, List.getElem?_eq_getElem h, prefixSum_succ a k h]
  simp

theorem readAt_outside (a : List Int) (k : Nat) (h : a.length ≤ k) :
    readAt a (k : Int) = .error .outOfBounds := by
  unfold readAt
  have h0 : ¬ ((k : Int) < 0) := by omega
  rw [if_neg h0, Int.toNat_natCast, List.getElem?_eq_none h]

theorem rangeSum_eq_segSum (a : List Int) (i j : Nat) (h : i ≤ j + 1) :
    rangeSum a i j = segSum a i j :=
  rangeSum_eq_prefixSum a i j h

/-! ### The nested loops of `algorithmB` -/

theorem Seen.neg_one_le {a : List Int} {n i j : Nat} {b : Best} (h : Seen a n i j b) :
    -1 ≤ b.maxSum := by
  rcases h.src with hb | ⟨i', j', _, _, _, hb, h0, _⟩
  · rw [hb]
  · rw [hb]; simp only; omega

theorem Seen.initial (a : List Int) (n : Nat) : Seen a n 0 0 ⟨-1, none, none⟩ where
  bound := by
    intro i' j' _ _ hb
    rcases hb with hb | ⟨_, hb⟩ <;> omega
  src := Or.inl rfl

theorem Seen.update {a : List Int} {n i j : Nat} {b : Best} (h : Seen a n i j b)
    (hij : i ≤ j) (hj : j < n) :
    Seen a n i (j + 1) (b.update (segSum a i j) i j) := by
  have hm := h.neg_one_le
  unfold Best.update
  split_ifs with hgt
  · refine ⟨?_, Or.inr ⟨i, j, hij, hj, Or.inr ⟨rfl, by omega⟩, rfl, by omega, ?_⟩⟩
    · intro i' j' h1 h2 hb
      simp only
      rcases hb with hb | ⟨hb1, hb2⟩
      · have := h.bound i' j' h1 h2 (Or.inl hb); omega
      · subst hb1
        rcases Nat.lt_succ_iff_lt_or_eq.mp hb2 with hlt | heq
        · have := h.bound i' j' h1 h2 (Or.inr ⟨rfl, hlt⟩); omega
        · subst heq; exact le_refl _
    · intro i'' j'' h1 h2 hb
      have := h.bound i'' j'' h1 h2 hb; omega
  · refine ⟨?_, ?_⟩
    · intro i' j' h1 h2 hb
      rcases hb with hb | ⟨hb1, hb2⟩
      · exact h.bound i' j' h1 h2 (Or.inl hb)
      · subst hb1
        rcases Nat.lt_succ_iff_lt_or_eq.mp hb2 with hlt | heq
        · exact h.bound i' j' h1 h2 (Or.inr ⟨rfl, hlt⟩)
        · subst heq; omega
    · rcases h.src with hb | ⟨i', j', h1, h2, hb, hbe, h0, hfirst⟩
      · exact Or.inl hb
      · refine Or.inr ⟨i', j', h1, h2, ?_, hbe, h0, hfirst⟩
        rcases hb with hb | ⟨hb1, hb2⟩
        · exact Or.inl hb
        · exact Or.inr ⟨hb1, by omega⟩

theorem Seen.nextRow {a : List Int} {n i : Nat} {b : Best} (h : Seen a n i n b) :
    Seen a n (i + 1) (i + 1) b := by
  have key : ∀ i' j', i' ≤ j' → j' < n → Before (i + 1) (i + 1) i' j' → Before i n i' j' := by
    intro i' j' h1 h2 hb
    rcases hb with hb | ⟨hb1, hb2⟩
    · rcases Nat.lt_succ_iff_lt_or_eq.mp hb with hlt | heq
      · exact Or.inl hlt
      · exact Or.inr ⟨heq, h2⟩
    · omega
  have back : ∀ i' j', i' ≤ j' → Before i n i' j' → Before (i + 1) (i + 1) i' j' := by
    intro i' j' _ hb
    rcases hb with hb | ⟨hb1, _⟩
    · exact Or.inl (by omega)
    · exact Or.inl (by omega)
  refine ⟨fun i' j' h1 h2 hb => h.bound i' j' h1 h2 (key i' j' h1 h2 hb), ?_⟩
  rcases h.src with hb | ⟨i', j', h1, h2, hb, hbe, h0, hfirst⟩
  · exact Or.inl hb
  · exact Or.inr ⟨i', j', h1, h2, back i' j' h1 hb, hbe, h0, hfirst⟩

theorem algorithmB.loopJ_spec (a : List Int) (n i : Nat) (hn : n ≤ a.length) :
    ∀ (cnt j : Nat) (b : Best), i ≤ j → j + cnt = n → Seen a n i j b →
      ∃ b', algorithmB.loopJ a i cnt j (prefixSum a j - prefixSum a i) b = .ok b' ∧
        Seen a n i n b' := by
  intro cnt
  induction cnt with
  | zero =>
    intro j b _ hj h
    have : j = n := by omega
    subst this
    exact ⟨b, rfl, h⟩
  | succ cnt ih =>
    intro j b hij hj h
    have hlt : j < a.length := by omega
    have hstep := h.update hij (by omega)
    obtain ⟨b', hb', hS⟩ := ih (j + 1) _ (by omega) (by omega) hstep
    refine ⟨b', ?_, hS⟩
    rw [algorithmB.loopJ, readAt_natCast a j hlt]
    simp only
    have e : prefixSum a j - prefixSum a i + (prefixSum a (j + 1) - prefixSum a j)
        = prefixSum a (j + 1) - prefixSum a i := by ring
    rw [e]
    have e2 : segSum a i j = prefixSum a (j + 1) - prefixSum a i := rfl
    rw [e2] at hb'
    exact_mod_cast hb'

theorem algorithmB.loopI_spec (a : List Int) (n : Nat) (hn : n ≤ a.length) :
    ∀ (cnt i : Nat) (b : Best), i + cnt = n → Seen a n i i b →
      ∃ b', algorithmB.loopI a n cnt i b = .ok b' ∧ Seen a n n n b' := by
  intro cnt
  induction cnt with
  | zero =>
    intro i b hi h
    have : i = n := by omega
    subst this
    exact ⟨b, rfl, h⟩
  | succ cnt ih =>
    intro i b hi h
    have hc : ((n : Int) - (i : Int)).toNat = n - i := by omega
    obtain ⟨b1, hb1, hS1⟩ := algorithmB.loopJ_spec a n i hn (n - i) i b (le_refl _) (by omega) h
    obtain ⟨b2, hb2, hS2⟩ := ih (i + 1) b1 (by omega) hS1.nextRow
    refine ⟨b2, ?_, hS2⟩
    rw [algorithmB.loopI, hc]
    rw [sub_self] at hb1
    rw [hb1]
    simp only
    exact_mod_cast hb2

theorem Seen.post_of_finish {a : List Int} {n : Nat} {b : Best} (h : Seen a n n n b) :
    ∃ r, b.finish n = .ok r ∧ Post a n r := by
  have hall : ∀ i j, i ≤ j → j < n → segSum a i j ≤ b.maxSum :=
    fun i j h1 h2 => h.bound i j h1 h2 (Or.inl (by omega))
  rcases h.src with hb | ⟨i', j', h1, h2, _, hb, h0, _⟩
  · subst hb
    refine ⟨⟨0, n, 0⟩, by simp [Best.finish], Or.inl ⟨rfl, ?_⟩⟩
    intro i j hij hj
    have := hall i j hij hj
    simp only at this
    omega
  · subst hb
    refine ⟨⟨segSum a i' j', i', j'⟩, ?_, Or.inr ⟨i', j', h1, h2, rfl, h0, ?_⟩⟩
    · unfold Best.finish
      simp only
      rw [if_neg (by omega)]
    · intro i j hij hj
      exact hall i j hij hj

theorem algorithmB_post (a : List Int) (n : Nat) (hn : n ≤ a.length) :
    ∃ r, algorithmB a n = .ok r ∧ Post a n r := by
  obtain ⟨b, hb, hS⟩ := algorithmB.loopI_spec a n hn n 0 _ (by omega) (Seen.initial a n)
  obtain ⟨r, hr, hP⟩ := hS.post_of_finish
  refine ⟨r, ?_, hP⟩
  unfold algorithmB
  rw [Int.toNat_natCast]
  have hb' : algorithmB.loopI a n n 0 ⟨-1, none, none⟩ = .ok b := by exact_mod_cast hb
  rw [hb']
  exact hr

/-! ### `algorithmA` recomputes what `algorithmB` accumulates -/

theorem algorithmA.sumLoop_spec (a : List Int) :
    ∀ (cnt k : Nat) (acc : Int), k + cnt ≤ a.length →
      algorithmA.sumLoop a cnt k acc = .ok (acc + (prefixSum a (k + cnt) - prefixSum a k)) := by
  intro cnt
  induction cnt with
  | zero => intro k acc _; simp [algorithmA.sumLoop]
  | succ cnt ih =>
    intro k acc h
    rw [algorithmA.sumLoop, readAt_natCast a k (by omega)]
    simp only
    have := ih (k + 1) (acc + (prefixSum a (k + 1) - prefixSum a k)) (by omega)
    rw [show k + 1 + cnt = k + (cnt + 1) by omega] at this
    rw [show ((k : Int) + 1) = ((k + 1 : Nat) : Int) by push_cast; rfl, this]
    congr 1
    ring

theorem algorithmA.sumLoop_outside (a : List Int) :
    ∀ (cnt k : Nat) (acc : Int), k ≤ a.length → a.length < k + cnt →
      algorithmA.sumLoop a cnt k acc = .error .outOfBounds := by
  intro cnt
  induction cnt with
  | zero => intro k acc h1 h2; omega
  | succ cnt ih =>
    intro k acc h1 h2
    rw [algorithmA.sumLoop]
    rcases Nat.lt_or_ge k a.length with hk | hk
    · rw [readAt_natCast a k hk]
      simp only
      rw [show ((k : Int) + 1) = ((k + 1 : Nat) : Int) by push_cast; rfl]
      exact ih (k + 1) _ (by omega) (by omega)
    · rw [readAt_outside a k hk]

theorem algorithmB.loopJ_outside (a : List Int) (i : Int) :
    ∀ (cnt j : Nat) (sum : Int) (b : Best), j ≤ a.length → a.length < j + cnt →
      algorithmB.loopJ a i cnt j sum b = .error .outOfBounds := by
  intro cnt
  induction cnt with
  | zero => intro j sum b h1 h2; omega
  | succ cnt ih =>
    intro j sum b h1 h2
    rw [algorithmB.loopJ]
    rcases Nat.lt_or_ge j a.length with hj | hj
    · rw [readAt_natCast a j hj]
      simp only
      rw [show ((j : Int) + 1) = ((j + 1 : Nat) : Int) by push_cast; rfl]
      exact ih (j + 1) _ _ (by omega) (by omega)
    · rw [readAt_outside a j hj]

theorem algorithmA.loopJ_eq (a : List Int) (i : Nat) :
    ∀ (cnt j : Nat) (b : Best), i ≤ j → j ≤ a.length →
      algorithmA.loopJ a i cnt j b
        = algorithmB.loopJ a i cnt j (prefixSum a j - prefixSum a i) b := by
  intro cnt
  induction cnt with
  | zero => intro j b _ _; rfl
  | succ cnt ih =>
    intro j b hij hj
    rw [algorithmA.loopJ, algorithmB.loopJ]
    have hc : ((j : Int) + 1 - (i : Int)).toNat = j + 1 - i := by omega
    rw [hc]
    rcases Nat.lt_or_ge j a.length with hlt | hge
    · rw [algorithmA.sumLoop_spec a (j + 1 - i) i 0 (by omega), readAt_natCast a j hlt]
      simp only
      rw [show i + (j + 1 - i) = j + 1 by omega]
      have e : prefixSum a j - prefixSum a i + (prefixSum a (j + 1) - prefixSum a j)
          = 0 + (prefixSum a (j + 1) - prefixSum a i) := by ring
      rw [e, show ((j : Int) + 1) = ((j + 1 : Nat) : Int) by push_cast; rfl,
        ih (j + 1) _ (by omega) (by omega)]
      congr 1
      ring
    · rw [algorithmA.sumLoop_outside a (j + 1 - i) i 0 (by omega) (by omega),
        readAt_outside a j hge]

theorem algorithmA.loopI_eq (a : List Int) (n : Nat) :
    ∀ (cnt i : Nat) (b : Best), i + cnt = n → i ≤ a.length →
      algorithmA.loopI a n cnt i b = algorithmB.loopI a n cnt i b := by
  intro cnt
  induction cnt with
  | zero => intro i b _ _; rfl
  | succ cnt ih =>
    intro i b hi hle
    rw [algorithmA.loopI, algorithmB.loopI, algorithmA.loopJ_eq a i _ i b (le_refl _) hle,
      sub_self]
    have hc : ((n : Int) - (i : Int)).toNat = n - i := by omega
    rw [hc]
    rcases Nat.lt_or_ge i a.length with hlt | hge
    · rw [show ((i : Int) + 1) = ((i + 1 : Nat) : Int) by push_cast; rfl]
      cases algorithmB.loopJ a i (n - i) i 0 b with
      | error e => rfl
      | ok b' => exact ih (i + 1) b' (by omega) (by omega)
    · rw [algorithmB.loopJ_outside a i (n - i) i 0 b hle (by omega)]

/-- On every array and every `length` the two quadratic-and-cubic scans agree,
faults included. -/
theorem algorithmA_eq_algorithmB (a : List Int) (length : Int) :
    algorithmA a length = algorithmB a length := by
  unfold algorithmA algorithmB
  rcases Int.lt_or_le length 0 with hneg | hpos
  · have : length.toNat = 0 := by omega
    rw [this]
    rfl
  · obtain ⟨n, rfl⟩ := Int.eq_ofNat_of_zero_le hpos
    rw [Int.toNat_natCast]
    have := algorithmA.loopI_eq a n n 0 ⟨-1, none, none⟩ (by omega) (by omega)
    simp only [Nat.cast_zero] at this
    rw [this]

theorem algorithmA_post (a : List Int) (n : Nat) (hn : n ≤ a.length) :
    ∃ r, algorithmA a n = .ok r ∧ Post a n r := by
  rw [algorithmA_eq_algorithmB]
  exact algorithmB_post a n hn

/-! ### The loop of `algorithmD` -/

theorem KInv.first (a : List Int) :
    KInv a 1 ⟨prefixSum a 1 - prefixSum a 0, prefixSum a 1 - prefixSum a 0, 0, 0, 0⟩ := by
  refine ⟨0, 0, 0, rfl, rfl, rfl, by omega, le_refl _, by omega, rfl, ?_, rfl, ?_⟩
  · intro l' hl'
    have : l' = 0 := by omega
    subst this
    exact le_refl _
  · intro l' r' h1 h2
    have : r' = 0 := by omega
    subst this
    have : l' = 0 := by omega
    subst this
    exact le_refl _

theorem KInv.kadane_step {a : List Int} {i : Nat} {st : Kadane} (h : KInv a i st) :
    KInv a (i + 1) (st.step (prefixSum a (i + 1) - prefixSum a i) i) := by
  rcases st with ⟨ms, rs, lf, rt, cl0⟩
  obtain ⟨cl, l, r, hcl, hl, hr, h1, h2, h3, hrun, hrunmax, hmax, hmaxall⟩ := h
  simp only at hcl hl hr hrun hrunmax hmax hmaxall
  have hrm : rs ≤ ms := by
    have := hmaxall cl (i - 1) (by omega) (by omega)
    unfold segSum at this
    rw [show i - 1 + 1 = i by omega] at this
    omega
  have hnewrun : ∀ (x : Int), rs + (prefixSum a (i + 1) - prefixSum a i) ≤ x →
      prefixSum a (i + 1) - prefixSum a i ≤ x →
      ∀ l' < i + 1, prefixSum a (i + 1) - prefixSum a l' ≤ x := by
    intro x hx1 hx2 l' hl'
    rcases Nat.lt_succ_iff_lt_or_eq.mp hl' with hlt | heq
    · have := hrunmax l' hlt; omega
    · subst heq; exact hx2
  have hnewmax : ∀ (x y : Int), ms ≤ y → x ≤ y →
      (∀ l' < i + 1, prefixSum a (i + 1) - prefixSum a l' ≤ x) →
      ∀ l' r', l' ≤ r' → r' < i + 1 → segSum a l' r' ≤ y := by
    intro x y hy hxy hx l' r' hlr hr'
    rcases Nat.lt_succ_iff_lt_or_eq.mp hr' with hlt | heq
    · have := hmaxall l' r' hlr hlt; omega
    · subst heq
      have := hx l' (by omega)
      unfold segSum; omega
  unfold Kadane.step KInv
  simp only
  split_ifs with hreset hbetter hbetter
  · simp only at hbetter ⊢
    refine ⟨i, i, i, rfl, rfl, rfl, by omega, le_refl _, by omega, rfl, ?_, rfl, ?_⟩
    · exact hnewrun _ (by omega) (le_refl _)
    · exact hnewmax _ _ (by omega) (le_refl _) (hnewrun _ (by omega) (le_refl _))
  · simp only at hbetter ⊢
    refine ⟨i, l, r, rfl, hl, hr, by omega, h2, by omega, rfl, ?_, hmax, ?_⟩
    · exact hnewrun _ (by omega) (le_refl _)
    · exact hnewmax _ _ (le_refl _) (by omega) (hnewrun _ (by omega) (le_refl _))
  · simp only at hbetter ⊢
    refine ⟨cl, cl, i, hcl, hcl, rfl, by omega, by omega, by omega, ?_, ?_, ?_, ?_⟩
    · omega
    · exact hnewrun _ (le_refl _) (by omega)
    · unfold segSum; omega
    · exact hnewmax _ _ (by omega) (le_refl _) (hnewrun _ (le_refl _) (by omega))
  · simp only at hbetter ⊢
    refine ⟨cl, l, r, hcl, hl, hr, by omega, h2, by omega, ?_, ?_, hmax, ?_⟩
    · omega
    · exact hnewrun _ (le_refl _) (by omega)
    · exact hnewmax _ _ (le_refl _) (by omega) (hnewrun _ (le_refl _) (by omega))

theorem algorithmD.loop_spec (a : List Int) (n : Nat) (hn : n ≤ a.length) :
    ∀ (cnt i : Nat) (st : Kadane), i + cnt = n → KInv a i st →
      ∃ st', algorithmD.loop a cnt i st = .ok st' ∧ KInv a n st' := by
  intro cnt
  induction cnt with
  | zero =>
    intro i st hi h
    have : i = n := by omega
    subst this
    exact ⟨st, rfl, h⟩
  | succ cnt ih =>
    intro i st hi h
    obtain ⟨st', hst', hK⟩ := ih (i + 1) _ (by omega) h.kadane_step
    refine ⟨st', ?_, hK⟩
    rw [algorithmD.loop, readAt_natCast a i (by omega)]
    simp only
    exact_mod_cast hst'

theorem KInv.post_of_loop {a : List Int} {n : Nat} {st : Kadane} (h : KInv a n st) :
    Post a n (st.finish n) := by
  obtain ⟨cl, l, r, _, hl, hr, _, h2, h3, _, _, hmax, hmaxall⟩ := h
  unfold Kadane.finish
  split_ifs with hneg
  · refine Or.inl ⟨rfl, ?_⟩
    intro i j hij hj
    have := hmaxall i j hij hj
    omega
  · refine Or.inr ⟨l, r, h2, h3, ?_, by omega, ?_⟩
    · rw [← hl, ← hr, ← hmax]
    · intro i j hij hj
      have := hmaxall i j hij hj
      omega

theorem algorithmD_post (a : List Int) (n : Nat) (h0 : 0 < n) (hn : n ≤ a.length) :
    ∃ r, algorithmD a n = .ok r ∧ Post a n r := by
  obtain ⟨st, hst, hK⟩ :=
    algorithmD.loop_spec a n hn (n - 1) 1 _ (by omega) (KInv.first a)
  refine ⟨st.finish n, ?_, hK.post_of_loop⟩
  unfold algorithmD
  have hr := readAt_natCast a 0 (by omega)
  simp only [Nat.cast_zero, zero_add] at hr
  rw [hr]
  simp only
  have hc : ((n : Int) - 1).toNat = n - 1 := by omega
  rw [hc]
  simp only [Nat.cast_one, zero_add] at hst
  rw [hst]

/-! ### The crossing scans of `algorithmC` -/

theorem LInv.empty_left (a : List Int) (c : Nat) : LInv a c (c + 1) ⟨0, -1, c⟩ := by
  refine ⟨by simp, ?_, Or.inl ⟨rfl, rfl⟩⟩
  intro l h1 h2
  omega

theorem LInv.left_step {a : List Int} {c k : Nat} {sc : Scan} (h : LInv a c (k + 1) sc)
    (hk : k ≤ c) : LInv a c k (sc.step (prefixSum a (k + 1) - prefixSum a k) k) := by
  rcases sc with ⟨sum, mx, idx⟩
  obtain ⟨hsum, hbound, hidx⟩ := h
  simp only at hsum hbound hidx
  have hm : -1 ≤ mx := by
    rcases hidx with ⟨h1, _⟩ | ⟨l, _, _, _, _, h0⟩ <;> omega
  have hb : ∀ (x : Int), mx ≤ x → prefixSum a (c + 1) - prefixSum a k ≤ x →
      ∀ l, k ≤ l → l ≤ c → prefixSum a (c + 1) - prefixSum a l ≤ x := by
    intro x hx1 hx2 l hl1 hl2
    rcases Nat.eq_or_lt_of_le hl1 with heq | hlt
    · subst heq; exact hx2
    · have := hbound l hlt hl2; omega
  unfold Scan.step LInv
  simp only
  split_ifs with hgt
  · simp only
    refine ⟨by omega, hb _ (by omega) (by omega), Or.inr ⟨k, le_refl _, hk, rfl, by omega, by omega⟩⟩
  · simp only
    refine ⟨by omega, hb _ (le_refl _) (by omega), ?_⟩
    rcases hidx with h1 | ⟨l, hl1, hl2, hl3, hl4, hl5⟩
    · exact Or.inl h1
    · exact Or.inr ⟨l, by omega, hl2, hl3, hl4, hl5⟩

theorem algorithmC.leftLoop_spec (a : List Int) (low c : Nat) (hc : c < a.length) :
    ∀ (cnt : Nat) (sc : Scan), low + cnt ≤ c + 1 → LInv a c (low + cnt) sc →
      ∃ sc', algorithmC.leftLoop a cnt (((low + cnt : Nat) : Int) - 1) sc = .ok sc' ∧
        LInv a c low sc' := by
  intro cnt
  induction cnt with
  | zero => intro sc _ h; exact ⟨sc, rfl, h⟩
  | succ cnt ih =>
    intro sc hle h
    have hstep : LInv a c (low + cnt) _ := LInv.left_step (k := low + cnt) h (by omega)
    obtain ⟨sc', hsc', hL⟩ := ih _ (by omega) hstep
    refine ⟨sc', ?_, hL⟩
    have e : (((low + (cnt + 1) : Nat) : Int) - 1) = ((low + cnt : Nat) : Int) := by
      push_cast; ring
    rw [algorithmC.leftLoop, e, readAt_natCast a (low + cnt) (by omega)]
    simp only
    exact hsc'

theorem RInv.empty_right (a : List Int) (c : Nat) : RInv a c (c + 1) ⟨0, -1, (c : Int) + 1⟩ := by
  refine ⟨by simp, ?_, Or.inl ⟨rfl, rfl⟩⟩
  intro r h1 h2
  omega

theorem RInv.right_step {a : List Int} {c k : Nat} {sc : Scan} (h : RInv a c k sc)
    (hk : c + 1 ≤ k) : RInv a c (k + 1) (sc.step (prefixSum a (k + 1) - prefixSum a k) k) := by
  rcases sc with ⟨sum, mx, idx⟩
  obtain ⟨hsum, hbound, hidx⟩ := h
  simp only at hsum hbound hidx
  have hm : -1 ≤ mx := by
    rcases hidx with ⟨h1, _⟩ | ⟨l, _, _, _, _, h0⟩ <;> omega
  have hb : ∀ (x : Int), mx ≤ x → prefixSum a (k + 1) - prefixSum a (c + 1) ≤ x →
      ∀ r, c + 1 ≤ r → r < k + 1 → prefixSum a (r + 1) - prefixSum a (c + 1) ≤ x := by
    intro x hx1 hx2 r hr1 hr2
    rcases Nat.lt_succ_iff_lt_or_eq.mp hr2 with hlt | heq
    · have := hbound r hr1 hlt; omega
    · subst heq; exact hx2
  unfold Scan.step RInv
  simp only
  split_ifs with hgt
  · simp only
    refine ⟨by omega, hb _ (by omega) (by omega), Or.inr ⟨k, hk, by omega, rfl, by omega, by omega⟩⟩
  · simp only
    refine ⟨by omega, hb _ (le_refl _) (by omega), ?_⟩
    rcases hidx with h1 | ⟨r, hr1, hr2, hr3, hr4, hr5⟩
    · exact Or.inl h1
    · exact Or.inr ⟨r, hr1, by omega, hr3, hr4, hr5⟩

theorem algorithmC.rightLoop_spec (a : List Int) (c high : Nat) (hh : high < a.length) :
    ∀ (cnt m : Nat) (sc : Scan), m + cnt = high + 1 → c + 1 ≤ m → RInv a c m sc →
      ∃ sc', algorithmC.rightLoop a cnt m sc = .ok sc' ∧ RInv a c (high + 1) sc' := by
  intro cnt
  induction cnt with
  | zero =>
    intro m sc hm _ h
    have : m = high + 1 := by omega
    subst this
    exact ⟨sc, rfl, h⟩
  | succ cnt ih =>
    intro m sc hm hcm h
    obtain ⟨sc', hsc', hR⟩ := ih (m + 1) _ (by omega) (by omega) (h.right_step hcm)
    refine ⟨sc', ?_, hR⟩
    rw [algorithmC.rightLoop, readAt_natCast a m (by omega)]
    simp only
    exact_mod_cast hsc'

/-! ### The recursion of `algorithmC` -/

theorem segSum_split (a : List Int) (i c j : Nat) :
    segSum a i j
      = (prefixSum a (c + 1) - prefixSum a i) + (prefixSum a (j + 1) - prefixSum a (c + 1)) := by
  unfold segSum; ring

theorem algorithmC.merge_post {a : List Int} {low c high : Nat} {l r : Scan}
    {left right : Result} (h1 : low ≤ c) (h2 : c < high)
    (hl : LInv a c low l) (hr : RInv a c (high + 1) r)
    (hleft : CPost a low c left) (hright : CPost a (c + 1) high right) :
    CPost a low high (algorithmC.merge left (algorithmC.middle low high l r) right) := by
  obtain ⟨_, hlb, hli⟩ := hl
  obtain ⟨_, hrb, hri⟩ := hr
  obtain ⟨hLb, _, hLs⟩ := hleft
  obtain ⟨hRb, _, hRs⟩ := hright
  have hlm : -1 ≤ l.max := by
    rcases hli with ⟨e, _⟩ | ⟨_, _, _, _, _, e⟩ <;> omega
  have hrm : -1 ≤ r.max := by
    rcases hri with ⟨e, _⟩ | ⟨_, _, _, _, _, e⟩ <;> omega
  -- the facts about `middle` that the merge needs
  generalize hmid : algorithmC.middle low high l r = mid
  have hm0 : 0 ≤ mid.value := by
    rw [← hmid]; unfold algorithmC.middle
    split_ifs <;> simp only <;> omega
  have hmc : l.max + r.max ≤ mid.value := by
    rw [← hmid]; unfold algorithmC.middle
    split_ifs <;> simp only <;> omega
  have hms : mid = ⟨0, (high : Int) + 1, low⟩ ∨
      (∃ i j : Nat, low ≤ i ∧ i ≤ j ∧ j ≤ high ∧ mid = ⟨segSum a i j, i, j⟩) ∨
      mid.value < left.value ∨ mid.value < right.value := by
    rw [← hmid]; unfold algorithmC.middle
    split_ifs with hneg
    · exact Or.inl rfl
    · right
      rcases hli with ⟨el, _⟩ | ⟨li, hli1, hli2, hli3, hli4, hli5⟩
      · rcases hri with ⟨er, _⟩ | ⟨ri, hri1, hri2, _, hri4, _⟩
        · omega
        · right; right
          have := hRb (c + 1) ri (le_refl _) hri1 (by omega)
          unfold segSum at this
          simp only
          omega
      · rcases hri with ⟨er, _⟩ | ⟨ri, hri1, hri2, hri3, hri4, hri5⟩
        · right; left
          have := hLb li c hli1 hli2 (le_refl _)
          unfold segSum at this
          simp only
          omega
        · left
          refine ⟨li, ri, hli1, by omega, by omega, ?_⟩
          rw [segSum_split a li c ri, hli3, hri3, hli4, hri4]
  have hcross : ∀ i j, low ≤ i → i ≤ c → c < j → j ≤ high → segSum a i j ≤ mid.value := by
    intro i j hi1 hi2 hj1 hj2
    have e1 := hlb i hi1 hi2
    have e2 := hrb j (by omega) (by omega)
    rw [segSum_split a i c j]
    omega
  have hall : ∀ (v : Int), left.value ≤ v → mid.value ≤ v → right.value ≤ v →
      ∀ i j, low ≤ i → i ≤ j → j ≤ high → segSum a i j ≤ v := by
    intro v hv1 hv2 hv3 i j hi hij hj
    rcases Nat.lt_or_ge c j with hcj | hcj
    · rcases Nat.lt_or_ge c i with hci | hci
      · have := hRb i j (by omega) hij hj; omega
      · have := hcross i j hi hci hcj hj; omega
    · have := hLb i j hi hij hcj; omega
  have hleftReal : 0 < left.value →
      ∃ i j : Nat, low ≤ i ∧ i ≤ j ∧ j ≤ high ∧ left = ⟨segSum a i j, i, j⟩ := by
    intro hpos
    rcases hLs with ⟨_, e⟩ | ⟨i, j, hi, hij, hj, e⟩
    · rw [e] at hpos; simp only at hpos; omega
    · exact ⟨i, j, hi, hij, by omega, e⟩
  have hrightReal : 0 < right.value →
      ∃ i j : Nat, low ≤ i ∧ i ≤ j ∧ j ≤ high ∧ right = ⟨segSum a i j, i, j⟩ := by
    intro hpos
    rcases hRs with ⟨_, e⟩ | ⟨i, j, hi, hij, hj, e⟩
    · rw [e] at hpos; simp only at hpos; omega
    · exact ⟨i, j, by omega, hij, hj, e⟩
  have hlow : low < high := by omega
  unfold algorithmC.merge
  split_ifs with hA hB hC
  · exact ⟨hall _ (le_refl _) (by omega) (by omega), fun _ => by omega,
      Or.inr (hleftReal (by omega))⟩
  · have : left.value ≤ right.value := by
      by_contra hcon
      exact hA ⟨by omega, by omega⟩
    exact ⟨hall _ this (by omega) (le_refl _), fun _ => by omega,
      Or.inr (hrightReal (by omega))⟩
  · exact ⟨hall _ (le_refl _) (by omega) (by omega), fun _ => by omega,
      Or.inr (hleftReal (by omega))⟩
  · refine ⟨hall _ (by omega) (le_refl _) (by omega), fun _ => hm0, ?_⟩
    rcases hms with e | e | e | e
    · exact Or.inl ⟨hlow, e⟩
    · exact Or.inr e
    · omega
    · omega

theorem center_natCast (low high : Nat) :
    Int.tdiv ((low : Int) + (high : Int)) 2 = (((low + high) / 2 : Nat) : Int) := by
  rw [Int.tdiv_eq_ediv (by omega) (by omega)]
  omega

theorem algorithmCFuel_post (a : List Int) :
    ∀ (fuel low high : Nat), low ≤ high → high < a.length → high - low < fuel →
      ∃ r, algorithmCFuel a fuel low high = .ok r ∧ CPost a low high r := by
  intro fuel
  induction fuel with
  | zero => intro low high _ _ h; omega
  | succ fuel ih =>
    intro low high hlh hh hf
    rw [algorithmCFuel]
    rcases Nat.eq_or_lt_of_le hlh with heq | hlt
    · subst heq
      rw [if_pos rfl, readAt_natCast a low hh]
      refine ⟨_, rfl, ?_, fun h => by omega, Or.inr ⟨low, low, le_refl _, le_refl _, le_refl _, rfl⟩⟩
      intro i j hi hij hj
      have : i = low := by omega
      subst this
      have : j = i := by omega
      subst this
      exact le_refl _
    · have hne : ¬ ((low : Int) = (high : Int)) := by omega
      rw [if_neg hne, center_natCast]
      obtain ⟨c, hc⟩ : ∃ c, (low + high) / 2 = c := ⟨_, rfl⟩
      rw [hc]
      have hc1 : low ≤ c := by omega
      have hc2 : c < high := by omega
      have hcl : ((c : Int) - (low : Int) + 1).toNat = c - low + 1 := by omega
      have hcr : ((high : Int) - (c : Int)).toNat = high - c := by omega
      obtain ⟨l, hl, hL⟩ := algorithmC.leftLoop_spec a low c (by omega) (c - low + 1)
        ⟨0, -1, c⟩ (by omega) (by rw [show low + (c - low + 1) = c + 1 by omega]; exact LInv.empty_left a c)
      have e1 : (((low + (c - low + 1) : Nat) : Int) - 1) = (c : Int) := by omega
      rw [e1] at hl
      obtain ⟨r, hr, hR⟩ := algorithmC.rightLoop_spec a c high hh (high - c) (c + 1)
        ⟨0, -1, (c : Int) + 1⟩ (by omega) (le_refl _) (RInv.empty_right a c)
      obtain ⟨left, hleft, hPl⟩ := ih low c hc1 (by omega) (by omega)
      obtain ⟨right, hright, hPr⟩ := ih (c + 1) high (by omega) hh (by omega)
      push_cast at hr hright
      rw [hcl, hcr, hl, hr, hleft, hright]
      exact ⟨_, rfl, algorithmC.merge_post hc1 hc2 hL hR hPl hPr⟩

theorem algorithmC_post (a : List Int) (low high : Nat) (hlh : low ≤ high)
    (hh : high < a.length) :
    ∃ r, algorithmC a low high = .ok r ∧ CPost a low high r := by
  unfold algorithmC
  have : ((high : Int) - (low : Int)).toNat + 1 = high - low + 1 := by omega
  rw [this]
  exact algorithmCFuel_post a (high - low + 1) low high hlh hh (by omega)

theorem Post.value_nonneg {a : List Int} {n : Nat} {r : Result} (h : Post a n r) :
    0 ≤ r.value := by
  rcases h with ⟨e, _⟩ | ⟨i, j, _, _, e, h0, _⟩
  · rw [e]
  · rw [e]; exact h0

theorem Post.value_of_isMax {a : List Int} {r : Result} {M : Int}
    (h : Post a a.length r) (hM : IsMaxSubSum a M) :
    (0 ≤ M → r.value = M) ∧ (M < 0 → r.value = 0) := by
  obtain ⟨⟨j0, hj0, i0, hi0, e0⟩, hMb⟩ := hM
  rw [rangeSum_eq_segSum a i0 j0 (by omega)] at e0
  rcases h with ⟨e, hall⟩ | ⟨i, j, hij, hj, e, h0, hall⟩
  · have := hall i0 j0 hi0 hj0
    constructor
    · intro; omega
    · intro; rw [e]
  · have h1 := hall i0 j0 hi0 hj0
    have h2 := hMb j hj i hij
    rw [rangeSum_eq_segSum a i j (by omega)] at h2
    have hv : r.value = segSum a i j := by rw [e]
    constructor
    · intro; omega
    · intro; omega

theorem Post.isRange {a : List Int} {n : Nat} {r : Result} (h : Post a n r) (hn : 0 < n)
    (hpos : r.start ≤ r.end_) : r.IsRange a n := by
  rcases h with ⟨e, _⟩ | ⟨i, j, hij, hj, e, _, _⟩
  · subst e
    simp only at hpos
    omega
  · subst e
    refine ⟨by simp only; omega, by simp only; omega, by simp only; omega, ?_⟩
    simp only [Int.toNat_natCast]
    exact rangeSum_eq_segSum a i j (by omega)

theorem Post.isRange_of_pos {a : List Int} {n : Nat} {r : Result} (h : Post a n r)
    (hpos : 0 < r.value) : r.IsRange a n := by
  rcases h with ⟨e, _⟩ | ⟨i, j, hij, hj, e, _, _⟩
  · rw [e] at hpos; simp only at hpos; omega
  · subst e
    refine ⟨by simp only; omega, by simp only; omega, by simp only; omega, ?_⟩
    simp only [Int.toNat_natCast]
    exact rangeSum_eq_segSum a i j (by omega)

theorem CPost.isRange_of_pos_C {a : List Int} {high : Nat} {r : Result}
    (h : CPost a 0 high r) (hpos : 0 < r.value) : r.IsRange a ((high : Int) + 1) := by
  obtain ⟨_, _, hs⟩ := h
  rcases hs with ⟨_, e⟩ | ⟨i, j, _, hij, hj, e⟩
  · rw [e] at hpos; simp only at hpos; omega
  · subst e
    refine ⟨by simp only; omega, by simp only; omega, by simp only; omega, ?_⟩
    simp only [Int.toNat_natCast]
    exact rangeSum_eq_segSum a i j (by omega)

theorem prefixSum_append (a t : List Int) (k : Nat) (h : k ≤ a.length) :
    prefixSum (a ++ t) k = prefixSum a k := by
  unfold prefixSum
  rw [List.take_append_of_le_length h]

theorem segSum_append (a t : List Int) (i j : Nat) (hij : i ≤ j) (hj : j < a.length) :
    segSum (a ++ t) i j = segSum a i j := by
  unfold segSum
  rw [prefixSum_append a t (j + 1) (by omega), prefixSum_append a t i (by omega)]

theorem Post.value_mono {a a' : List Int} {n n' : Nat} {r r' : Result}
    (h : Post a n r) (h' : Post a' n' r') (hn : n ≤ n')
    (hseg : ∀ i j, i ≤ j → j < n → segSum a' i j = segSum a i j) :
    r.value ≤ r'.value := by
  rcases h with ⟨e, _⟩ | ⟨i, j, hij, hj, e, h0, _⟩
  · rw [e]; exact h'.value_nonneg
  · subst e
    simp only
    rcases h' with ⟨_, hall⟩ | ⟨i', j', _, _, e', _, hall⟩
    · have := hall i j hij (by omega)
      rw [hseg i j hij hj] at this
      omega
    · subst e'
      simp only
      have := hall i j hij (by omega)
      rw [hseg i j hij hj] at this
      exact this

theorem CPost.value_mono_C {a a' : List Int} {high high' : Nat} {r r' : Result}
    (h : CPost a 0 high r) (h' : CPost a' 0 high' r') (hh : high < high')
    (hseg : ∀ i j, i ≤ j → j ≤ high → segSum a' i j = segSum a i j) :
    r.value ≤ r'.value := by
  obtain ⟨_, _, hs⟩ := h
  obtain ⟨hb', h0', _⟩ := h'
  rcases hs with ⟨_, e⟩ | ⟨i, j, _, hij, hj, e⟩
  · rw [e]; exact h0' (by omega)
  · subst e
    simp only
    have := hb' i j (Nat.zero_le _) hij (by omega)
    rw [hseg i j hij hj] at this
    exact this

theorem prefixSum_lt_of_neg (a : List Int) (hneg : ∀ x ∈ a, x < 0) :
    ∀ (d i : Nat), i + d < a.length → prefixSum a (i + d + 1) < prefixSum a i := by
  intro d
  induction d with
  | zero =>
    intro i hi
    rw [Nat.add_zero, prefixSum_succ a i hi]
    have := hneg a[i] (List.getElem_mem _)
    omega
  | succ d ih =>
    intro i hi
    have h1 := ih i (by omega)
    rw [show i + (d + 1) + 1 = (i + d + 1) + 1 by omega, prefixSum_succ a (i + d + 1) (by omega)]
    have := hneg a[i + d + 1] (List.getElem_mem _)
    omega

theorem segSum_neg_of_neg (a : List Int) (hneg : ∀ x ∈ a, x < 0) (i j : Nat) (hij : i ≤ j)
    (hj : j < a.length) : segSum a i j < 0 := by
  have := prefixSum_lt_of_neg a hneg (j - i) i (by omega)
  rw [show i + (j - i) + 1 = j + 1 by omega] at this
  unfold segSum
  omega

theorem segSum_self (a : List Int) (k : Nat) (hk : k < a.length) : segSum a k k = a[k] := by
  unfold segSum
  rw [prefixSum_succ a k hk]
  omega

theorem Post.sentinel_of_neg {a : List Int} {r : Result} (h : Post a a.length r)
    (hneg : ∀ x ∈ a, x < 0) : r = ⟨0, a.length, 0⟩ := by
  rcases h with ⟨e, _⟩ | ⟨i, j, hij, hj, _, h0, _⟩
  · exact e
  · have := segSum_neg_of_neg a hneg i j hij hj
    omega

theorem CPost.sentinel_of_neg_C {a : List Int} {low high : Nat} {r : Result}
    (h : CPost a low high r) (hlt : low < high) (hh : high < a.length)
    (hneg : ∀ x ∈ a, x < 0) : r = ⟨0, (high : Int) + 1, low⟩ := by
  obtain ⟨_, h0, hs⟩ := h
  rcases hs with ⟨_, e⟩ | ⟨i, j, _, hij, hj, e⟩
  · exact e
  · have h1 := segSum_neg_of_neg a hneg i j hij (by omega)
    have h2 := h0 hlt
    rw [e] at h2
    simp only at h2
    omega

theorem Post.isRange_of_nonneg_mem {a : List Int} {r : Result} (h : Post a a.length r)
    (hex : ∃ x ∈ a, 0 ≤ x) : r.IsRange a a.length := by
  obtain ⟨x, hx, hx0⟩ := hex
  obtain ⟨k, hk, rfl⟩ := List.getElem_of_mem hx
  apply h.isRange (by omega)
  rcases h with ⟨_, hall⟩ | ⟨i, j, hij, hj, e, _, _⟩
  · have := hall k k (le_refl _) hk
    rw [segSum_self a k hk] at this
    omega
  · rw [e]; simp only; omega

theorem Post.value_eq_of_CPost {a : List Int} {r rc : Result} (h : Post a a.length r)
    (hc : CPost a 0 (a.length - 1) rc) (h2 : 2 ≤ a.length) : r.value = rc.value := by
  obtain ⟨hb, h0, hs⟩ := hc
  have hc0 := h0 (by omega)
  rcases h with ⟨e, hall⟩ | ⟨i, j, hij, hj, e, hnn, hall⟩
  · rcases hs with ⟨_, ec⟩ | ⟨i', j', _, hij', hj', ec⟩
    · rw [e, ec]
    · have := hall i' j' hij' (by omega)
      rw [ec] at hc0
      simp only at hc0
      omega
  · have h1 := hb i j (Nat.zero_le _) hij (by omega)
    rcases hs with ⟨_, ec⟩ | ⟨i', j', _, hij', hj', ec⟩
    · rw [ec] at h1
      rw [e, ec]
      simp only at h1 ⊢
      omega
    · have h3 := hall i' j' hij' (by omega)
      rw [ec] at h1
      rw [e, ec]
      simp only at h1 ⊢
      omega

/-- On an array of two elements or more the four algorithms return the same
value. -/
theorem values_agree_of_two_le (s : List Int) (h2 : 2 ≤ s.length) :
    ∃ ra rb rc rd, algorithmA s s.length = .ok ra ∧ algorithmB s s.length = .ok rb ∧
      algorithmC s 0 ((s.length : Int) - 1) = .ok rc ∧ algorithmD s s.length = .ok rd ∧
      ra.value = rb.value ∧ rb.value = rc.value ∧ rc.value = rd.value := by
  obtain ⟨ra, hra, hPa⟩ := algorithmA_post s s.length (le_refl _)
  obtain ⟨rb, hrb, hPb⟩ := algorithmB_post s s.length (le_refl _)
  obtain ⟨rd, hrd, hPd⟩ := algorithmD_post s s.length (by omega) (le_refl _)
  obtain ⟨rc, hrc, hPc⟩ := algorithmC_post s 0 (s.length - 1) (Nat.zero_le _) (by omega)
  have e : (((s.length - 1 : Nat) : Int)) = (s.length : Int) - 1 := by omega
  rw [e] at hrc
  have ha := hPa.value_eq_of_CPost hPc h2
  have hb := hPb.value_eq_of_CPost hPc h2
  have hd := hPd.value_eq_of_CPost hPc h2
  exact ⟨ra, rb, rc, rd, hra, hrb, by exact_mod_cast hrc, hrd, by omega, hb, by omega⟩

/-- On a non-empty array of negative elements `algorithmA`, `algorithmB` and
`algorithmD` return the sentinel, and so does `algorithmC` when the array has two
elements or more. -/
theorem all_negative_sentinel (s : List Int) (hne : s ≠ []) (hneg : ∀ x ∈ s, x < 0) :
    algorithmA s s.length = .ok ⟨0, s.length, 0⟩ ∧
      algorithmB s s.length = .ok ⟨0, s.length, 0⟩ ∧
      algorithmD s s.length = .ok ⟨0, s.length, 0⟩ ∧
      (2 ≤ s.length → algorithmC s 0 ((s.length : Int) - 1) = .ok ⟨0, s.length, 0⟩) := by
  have hlen : 0 < s.length := List.length_pos.mpr hne
  obtain ⟨ra, hra, hPa⟩ := algorithmA_post s s.length (le_refl _)
  obtain ⟨rb, hrb, hPb⟩ := algorithmB_post s s.length (le_refl _)
  obtain ⟨rd, hrd, hPd⟩ := algorithmD_post s s.length hlen (le_refl _)
  obtain ⟨rc, hrc, hPc⟩ := algorithmC_post s 0 (s.length - 1) (Nat.zero_le _) (by omega)
  have e : (((s.length - 1 : Nat) : Int)) = (s.length : Int) - 1 := by omega
  rw [e] at hrc
  rw [hPa.sentinel_of_neg hneg] at hra
  rw [hPb.sentinel_of_neg hneg] at hrb
  rw [hPd.sentinel_of_neg hneg] at hrd
  refine ⟨hra, hrb, hrd, ?_⟩
  intro h2
  rw [hPc.sentinel_of_neg_C (by omega) (by omega) hneg, e] at hrc
  simp only [Nat.cast_zero, sub_add_cancel] at hrc
  exact hrc

/-- On an array with an element `≥ 0`, `algorithmA`, `algorithmB` and `algorithmD`
return a range of the array, not the sentinel. -/
theorem nonneg_element_range (s : List Int) (hex : ∃ x ∈ s, 0 ≤ x) :
    ∃ ra rb rd, algorithmA s s.length = .ok ra ∧ algorithmB s s.length = .ok rb ∧
      algorithmD s s.length = .ok rd ∧ ra.IsRange s s.length ∧ rb.IsRange s s.length ∧
      rd.IsRange s s.length := by
  have hlen : 0 < s.length := by
    obtain ⟨x, hx, _⟩ := hex
    exact List.length_pos_of_mem hx
  obtain ⟨ra, hra, hPa⟩ := algorithmA_post s s.length (le_refl _)
  obtain ⟨rb, hrb, hPb⟩ := algorithmB_post s s.length (le_refl _)
  obtain ⟨rd, hrd, hPd⟩ := algorithmD_post s s.length hlen (le_refl _)
  exact ⟨ra, rb, rd, hra, hrb, hrd, hPa.isRange_of_nonneg_mem hex,
    hPb.isRange_of_nonneg_mem hex, hPd.isRange_of_nonneg_mem hex⟩

/-! ### The claims -/

/-- C3: on a non-empty array whose greatest range sum is `M`, each of
`algorithmA`, `algorithmB` and `algorithmD` returns a result, with value `M` when
`0 ≤ M` and value `0` when `M < 0`. -/
theorem value_is_max_or_zero (s : List Int) (M : Int) (hne : s ≠ []) (hM : IsMaxSubSum s M) :
    ∃ ra rb rd, algorithmA s s.length = .ok ra ∧ algorithmB s s.length = .ok rb ∧
      algorithmD s s.length = .ok rd ∧
      (0 ≤ M → ra.value = M ∧ rb.value = M ∧ rd.value = M) ∧
      (M < 0 → ra.value = 0 ∧ rb.value = 0 ∧ rd.value = 0) := by
  have hlen : 0 < s.length := List.length_pos.mpr hne
  obtain ⟨ra, hra, hPa⟩ := algorithmA_post s s.length (le_refl _)
  obtain ⟨rb, hrb, hPb⟩ := algorithmB_post s s.length (le_refl _)
  obtain ⟨rd, hrd, hPd⟩ := algorithmD_post s s.length hlen (le_refl _)
  have ha := hPa.value_of_isMax hM
  have hb := hPb.value_of_isMax hM
  have hd := hPd.value_of_isMax hM
  exact ⟨ra, rb, rd, hra, hrb, hrd, fun h => ⟨ha.1 h, hb.1 h, hd.1 h⟩,
    fun h => ⟨ha.2 h, hb.2 h, hd.2 h⟩⟩

theorem value_is_max_or_zero_witness :
    ([2, -3, 4] : List Int) ≠ [] ∧ IsMaxSubSum [2, -3, 4] 4 ∧
      ∃ ra rb rd, algorithmA [2, -3, 4] ([2, -3, 4] : List Int).length = .ok ra ∧
        algorithmB [2, -3, 4] ([2, -3, 4] : List Int).length = .ok rb ∧
        algorithmD [2, -3, 4] ([2, -3, 4] : List Int).length = .ok rd ∧
        ((0 : Int) ≤ 4 → ra.value = 4 ∧ rb.value = 4 ∧ rd.value = 4) ∧
        ((4 : Int) < 0 → ra.value = 0 ∧ rb.value = 0 ∧ rd.value = 0) :=
  ⟨by decide, by decide, value_is_max_or_zero [2, -3, 4] 4 (by decide) (by decide)⟩

/-- In exact arithmetic: on a non-empty array of `n` elements each of the four algorithms returns
a result (`algorithmC` on the range `[0, n - 1]`), and a result whose value is
positive has `0 ≤ start ≤ end < n` and the sum of `[start, end]` as its value. -/
theorem positive_value_is_range_sum (s : List Int) (hne : s ≠ []) :
    ∃ ra rb rc rd, algorithmA s s.length = .ok ra ∧ algorithmB s s.length = .ok rb ∧
      algorithmC s 0 ((s.length : Int) - 1) = .ok rc ∧ algorithmD s s.length = .ok rd ∧
      (0 < ra.value → ra.IsRange s s.length) ∧ (0 < rb.value → rb.IsRange s s.length) ∧
      (0 < rc.value → rc.IsRange s s.length) ∧ (0 < rd.value → rd.IsRange s s.length) := by
  have hlen : 0 < s.length := List.length_pos.mpr hne
  obtain ⟨ra, hra, hPa⟩ := algorithmA_post s s.length (le_refl _)
  obtain ⟨rb, hrb, hPb⟩ := algorithmB_post s s.length (le_refl _)
  obtain ⟨rd, hrd, hPd⟩ := algorithmD_post s s.length hlen (le_refl _)
  obtain ⟨rc, hrc, hPc⟩ := algorithmC_post s 0 (s.length - 1) (Nat.zero_le _) (by omega)
  have e : (((s.length - 1 : Nat) : Int)) = (s.length : Int) - 1 := by omega
  have e' : (((s.length - 1 : Nat) : Int)) + 1 = (s.length : Int) := by omega
  rw [e] at hrc
  refine ⟨ra, rb, rc, rd, hra, hrb, by exact_mod_cast hrc, hrd, hPa.isRange_of_pos,
    hPb.isRange_of_pos, ?_, hPd.isRange_of_pos⟩
  intro hpos
  have := hPc.isRange_of_pos_C hpos
  rw [e'] at this
  exact this

/-- In exact arithmetic: appending an element `x ≥ 0` to a non-empty array never lowers the value
any of the four algorithms returns (`algorithmC` on `[0, n]` against `[0, n - 1]`),
and all eight calls return a result. -/
theorem append_nonneg_value_mono (s : List Int) (x : Int) (hne : s ≠ []) (_hx : 0 ≤ x) :
    ∃ ra ra' rb rb' rc rc' rd rd',
      algorithmA s s.length = .ok ra ∧ algorithmA (s ++ [x]) ((s.length : Int) + 1) = .ok ra' ∧
      algorithmB s s.length = .ok rb ∧ algorithmB (s ++ [x]) ((s.length : Int) + 1) = .ok rb' ∧
      algorithmC s 0 ((s.length : Int) - 1) = .ok rc ∧
      algorithmC (s ++ [x]) 0 (s.length : Int) = .ok rc' ∧
      algorithmD s s.length = .ok rd ∧ algorithmD (s ++ [x]) ((s.length : Int) + 1) = .ok rd' ∧
      ra.value ≤ ra'.value ∧ rb.value ≤ rb'.value ∧ rc.value ≤ rc'.value ∧
      rd.value ≤ rd'.value := by
  have hlen : 0 < s.length := List.length_pos.mpr hne
  have hlen' : (s ++ [x]).length = s.length + 1 := by simp
  obtain ⟨ra, hra, hPa⟩ := algorithmA_post s s.length (le_refl _)
  obtain ⟨rb, hrb, hPb⟩ := algorithmB_post s s.length (le_refl _)
  obtain ⟨rd, hrd, hPd⟩ := algorithmD_post s s.length hlen (le_refl _)
  obtain ⟨rc, hrc, hPc⟩ := algorithmC_post s 0 (s.length - 1) (Nat.zero_le _) (by omega)
  obtain ⟨ra', hra', hPa'⟩ := algorithmA_post (s ++ [x]) (s.length + 1) (by omega)
  obtain ⟨rb', hrb', hPb'⟩ := algorithmB_post (s ++ [x]) (s.length + 1) (by omega)
  obtain ⟨rd', hrd', hPd'⟩ := algorithmD_post (s ++ [x]) (s.length + 1) (by omega) (by omega)
  obtain ⟨rc', hrc', hPc'⟩ := algorithmC_post (s ++ [x]) 0 s.length (Nat.zero_le _) (by omega)
  have e : (((s.length - 1 : Nat) : Int)) = (s.length : Int) - 1 := by omega
  rw [e] at hrc
  have hseg : ∀ i j, i ≤ j → j < s.length → segSum (s ++ [x]) i j = segSum s i j :=
    fun i j hij hj => segSum_append s [x] i j hij hj
  refine ⟨ra, ra', rb, rb', rc, rc', rd, rd', hra, by exact_mod_cast hra', hrb,
    by exact_mod_cast hrb', by exact_mod_cast hrc, by exact_mod_cast hrc', hrd,
    by exact_mod_cast hrd', hPa.value_mono hPa' (by omega) hseg,
    hPb.value_mono hPb' (by omega) hseg, ?_, hPd.value_mono hPd' (by omega) hseg⟩
  exact hPc.value_mono_C hPc' (by omega) (fun i j hij hj => hseg i j hij (by omega))

/-- C9: on the one-element array `[x]` with `x ≥ 0` each of the four algorithms
returns value `x`, start `0`, end `0`. -/
theorem single_nonneg_element (x : Int) (hx : 0 ≤ x) :
    algorithmA [x] 1 = .ok ⟨x, 0, 0⟩ ∧ algorithmB [x] 1 = .ok ⟨x, 0, 0⟩ ∧
      algorithmC [x] 0 0 = .ok ⟨x, 0, 0⟩ ∧ algorithmD [x] 1 = .ok ⟨x, 0, 0⟩ := by
  have hgt : x > -1 := by omega
  have hnn : ¬ x < 0 := by omega
  refine ⟨?_, ?_, ?_, ?_⟩
  · simp [algorithmA, algorithmA.loopI, algorithmA.loopJ, algorithmA.sumLoop, readAt,
      Best.update, Best.finish, hgt, hnn]
  · simp [algorithmB, algorithmB.loopI, algorithmB.loopJ, readAt, Best.update, Best.finish,
      hgt, hnn]
  · simp [algorithmC, algorithmCFuel, readAt]
  · simp [algorithmD, algorithmD.loop, readAt, Kadane.finish, hnn]

theorem single_nonneg_element_witness :
    (0 : Int) ≤ 0 ∧ algorithmA [0] 1 = .ok ⟨0, 0, 0⟩ ∧ algorithmB [0] 1 = .ok ⟨0, 0, 0⟩ ∧
      algorithmC [0] 0 0 = .ok ⟨0, 0, 0⟩ ∧ algorithmD [0] 1 = .ok ⟨0, 0, 0⟩ :=
  ⟨by decide, single_nonneg_element 0 (by decide)⟩

/-- C10: for every array and every `length ≥ 0`, `algorithmB` and `algorithmA`
give the same outcome, and when the array has at least `length` elements that
outcome is a result, equal in value, start and end. -/
theorem algorithmB_refines_algorithmA (s : List Int) (length : Int) (h : 0 ≤ length) :
    algorithmB s length = algorithmA s length ∧
      (length ≤ s.length → ∃ r, algorithmB s length = .ok r ∧ algorithmA s length = .ok r) := by
  refine ⟨(algorithmA_eq_algorithmB s length).symm, ?_⟩
  intro hle
  obtain ⟨n, rfl⟩ := Int.eq_ofNat_of_zero_le h
  obtain ⟨r, hr, _⟩ := algorithmB_post s n (by omega)
  exact ⟨r, hr, by rw [algorithmA_eq_algorithmB]; exact hr⟩

theorem algorithmB_refines_algorithmA_witness :
    (0 : Int) ≤ 3 ∧ algorithmB [1, -2, 1] 3 = algorithmA [1, -2, 1] 3 ∧
      ((3 : Int) ≤ ([1, -2, 1] : List Int).length →
        ∃ r, algorithmB [1, -2, 1] 3 = .ok r ∧ algorithmA [1, -2, 1] 3 = .ok r) :=
  ⟨by decide, algorithmB_refines_algorithmA [1, -2, 1] 3 (by decide)⟩

/-- C5, as stated, fails: on `test1` the value `algorithmA` returns is not 33. -/
theorem fixture_value_ne_33 : ¬ ∃ r, algorithmA test1 16 = .ok r ∧ r.value = 33 := by
  have h : algorithmA test1 16 = .ok ⟨34, 3, 13⟩ := by
    set_option maxRecDepth 100000 in decide
  rintro ⟨r, hr, hv⟩
  rw [h] at hr
  injection hr with hr
  subst hr
  simp at hv

set_option maxRecDepth 100000 in
/-- C5, amended: on the 16 elements of `test1` the four algorithms return value
34, with start 3 and end 13. -/
theorem fixture_value_34 :
    algorithmA test1 16 = .ok ⟨34, 3, 13⟩ ∧ algorithmB test1 16 = .ok ⟨34, 3, 13⟩ ∧
      algorithmC test1 0 15 = .ok ⟨34, 3, 13⟩ ∧ algorithmD test1 16 = .ok ⟨34, 3, 13⟩ := by
  decide

/-- With `length = 0` the loop of `algorithmD` is never entered, but `array[ 0 ]`
is read before it: on the empty array the read is out of bounds. -/
theorem algorithmD_empty : algorithmD [] 0 = .error .outOfBounds := by
  decide

/-- With `0 ≤ high < low` neither scan of `algorithmC` runs and the first recursive
call is again on a range with `high < low`: no fuel is enough. -/
theorem algorithmCFuel_inverted (a : List Int) :
    ∀ (fuel low high : Nat), high < low →
      algorithmCFuel a fuel low high = .error .outOfFuel := by
  intro fuel
  induction fuel with
  | zero => intro low high _; rfl
  | succ fuel ih =>
    intro low high h
    have hne : ¬ ((low : Int) = (high : Int)) := by omega
    rw [algorithmCFuel, if_neg hne, center_natCast]
    have h1 : ((((low + high) / 2 : Nat) : Int) - (low : Int) + 1).toNat = 0 := by omega
    have h2 : ((high : Int) - (((low + high) / 2 : Nat) : Int)).toNat = 0 := by omega
    rw [h1, h2, ih low ((low + high) / 2) (by omega)]
    rfl

/-- C8, as stated, fails: with `length = 0` neither `algorithmA` nor `algorithmB`
ends in a fault on the empty array. -/
theorem length_zero_no_fault :
    ¬ ((∃ e, algorithmA [] 0 = .error e) ∨ (∃ e, algorithmB [] 0 = .error e)) := by
  have hA : algorithmA [] 0 = .ok ⟨0, 0, 0⟩ := rfl
  have hB : algorithmB [] 0 = .ok ⟨0, 0, 0⟩ := rfl
  rintro (⟨e, h⟩ | ⟨e, h⟩)
  · rw [hA] at h; cases h
  · rw [hB] at h; cases h

/-- C8, amended: called with `length = 0`, `algorithmA` and `algorithmB` read
nothing and return the result with value 0, start 0 and end 0, on every array. -/
theorem length_zero_result (s : List Int) :
    algorithmA s 0 = .ok ⟨0, 0, 0⟩ ∧ algorithmB s 0 = .ok ⟨0, 0, 0⟩ :=
  ⟨rfl, rfl⟩

/-- C1 at the one-element array `[-5]`: `algorithmA`, `algorithmB` and `algorithmD`
return value 0 while `algorithmC` on `[0, 0]` returns value -5. -/
theorem single_negative_values_differ :
    (∃ ra rb rc rd, algorithmA [-5] 1 = .ok ra ∧ algorithmB [-5] 1 = .ok rb ∧
      algorithmC [-5] 0 0 = .ok rc ∧ algorithmD [-5] 1 = .ok rd ∧
      ra.value = 0 ∧ rb.value = 0 ∧ rd.value = 0 ∧ rc.value = -5) :=
  ⟨⟨0, 1, 0⟩, ⟨0, 1, 0⟩, ⟨-5, 0, 0⟩, ⟨0, 1, 0⟩, by decide, by decide, by decide, by decide,
    rfl, rfl, rfl, rfl⟩

/-- C2 at the one-element array `[-5]` and at `test9`: the three length-based
algorithms return the sentinel on both, `algorithmC` returns it on `test9` but
returns the element itself, with start 0 and end 0, on `[-5]`. -/
theorem single_negative_no_sentinel :
    algorithmA [-5] 1 = .ok ⟨0, 1, 0⟩ ∧ algorithmB [-5] 1 = .ok ⟨0, 1, 0⟩ ∧
      algorithmD [-5] 1 = .ok ⟨0, 1, 0⟩ ∧ algorithmC [-5] 0 0 = .ok ⟨-5, 0, 0⟩ ∧
      algorithmA test9 3 = .ok ⟨0, 3, 0⟩ ∧ algorithmB test9 3 = .ok ⟨0, 3, 0⟩ ∧
      algorithmC test9 0 2 = .ok ⟨0, 3, 0⟩ ∧ algorithmD test9 3 = .ok ⟨0, 3, 0⟩ := by
  decide

/-- C6 at the array `[0, -5]`: `algorithmA`, `algorithmB` and `algorithmD` return
the range `[0, 0]` with value 0, `algorithmC` on `[0, 1]` returns value 0 with
start 2 and end 0. -/
theorem zero_sum_sentinel_from_algorithmC :
    algorithmA [0, -5] 2 = .ok ⟨0, 0, 0⟩ ∧ algorithmB [0, -5] 2 = .ok ⟨0, 0, 0⟩ ∧
      algorithmD [0, -5] 2 = .ok ⟨0, 0, 0⟩ ∧ algorithmC [0, -5] 0 1 = .ok ⟨0, 2, 0⟩ := by
  decide

/-! ### Sub-arrays -/

theorem length_subArray (a : List Int) (low high : Nat) (hh : high < a.length) :
    (subArray a low high).length = high + 1 - low := by
  unfold subArray
  rw [List.length_take, List.length_drop]
  omega

theorem prefixSum_subArray (a : List Int) (low high k : Nat) (hk : k ≤ high + 1 - low) :
    prefixSum (subArray a low high) k = prefixSum a (low + k) - prefixSum a low := by
  unfold prefixSum subArray
  rw [List.take_take, Nat.min_eq_left hk, List.take_add, List.sum_append]
  ring

theorem segSum_subArray (a : List Int) (low high i j : Nat) (hij : i ≤ j)
    (hj : low + j ≤ high) :
    segSum (subArray a low high) i j = segSum a (low + i) (low + j) := by
  unfold segSum
  rw [prefixSum_subArray a low high (j + 1) (by omega),
    prefixSum_subArray a low high i (by omega)]
  rw [show low + (j + 1) = low + j + 1 by omega]
  ring

theorem segSum_neg_of_subArray_neg (a : List Int) (low high : Nat) (hh : high < a.length)
    (hneg : ∀ x ∈ subArray a low high, x < 0) (i j : Nat) (hi : low ≤ i) (hij : i ≤ j)
    (hj : j ≤ high) : segSum a i j < 0 := by
  have h1 := segSum_neg_of_neg (subArray a low high) hneg (i - low) (j - low) (by omega)
    (by rw [length_subArray a low high hh]; omega)
  rw [segSum_subArray a low high (i - low) (j - low) (by omega) (by omega)] at h1
  rw [show low + (i - low) = i by omega, show low + (j - low) = j by omega] at h1
  exact h1

theorem CPost.sentinel_of_neg_sums {a : List Int} {low high : Nat} {r : Result}
    (h : CPost a low high r) (hlt : low < high)
    (hneg : ∀ i j, low ≤ i → i ≤ j → j ≤ high → segSum a i j < 0) :
    r = ⟨0, (high : Int) + 1, low⟩ := by
  obtain ⟨_, h0, hs⟩ := h
  rcases hs with ⟨_, e⟩ | ⟨i, j, hi, hij, hj, e⟩
  · exact e
  · have h1 := hneg i j hi hij hj
    have h2 := h0 hlt
    rw [e] at h2
    simp only at h2
    omega

/-! ### Faults of `algorithmC` -/

theorem readAt_fault (a : List Int) (k : Int) (e : Fault) (h : readAt a k = .error e) :
    e = .outOfBounds := by
  unfold readAt at h
  split_ifs at h
  · injection h with h; exact h.symm
  · cases hk : a[k.toNat]? with
    | none => rw [hk] at h; injection h with h; exact h.symm
    | some v => rw [hk] at h; cases h

theorem algorithmC.leftLoop_fault (a : List Int) :
    ∀ (cnt : Nat) (i : Int) (sc : Scan) (e : Fault),
      algorithmC.leftLoop a cnt i sc = .error e → e = .outOfBounds := by
  intro cnt
  induction cnt with
  | zero => intro i sc e h; cases h
  | succ cnt ih =>
    intro i sc e h
    rw [algorithmC.leftLoop] at h
    cases hr : readAt a i with
    | error e' =>
      rw [hr] at h
      injection h with h
      subst h
      exact readAt_fault a i e' hr
    | ok v =>
      rw [hr] at h
      exact ih _ _ e h

theorem algorithmC.rightLoop_fault (a : List Int) :
    ∀ (cnt : Nat) (i : Int) (sc : Scan) (e : Fault),
      algorithmC.rightLoop a cnt i sc = .error e → e = .outOfBounds := by
  intro cnt
  induction cnt with
  | zero => intro i sc e h; cases h
  | succ cnt ih =>
    intro i sc e h
    rw [algorithmC.rightLoop] at h
    cases hr : readAt a i with
    | error e' =>
      rw [hr] at h
      injection h with h
      subst h
      exact readAt_fault a i e' hr
    | ok v =>
      rw [hr] at h
      exact ih _ _ e h

/-- On a range with `low ≤ high`, fuel above `high - low` is never used up,
whatever the array holds. -/
theorem algorithmCFuel_fuel_suffices (a : List Int) :
    ∀ (fuel low high : Nat), low ≤ high → high - low < fuel →
      algorithmCFuel a fuel low high ≠ .error .outOfFuel := by
  intro fuel
  induction fuel with
  | zero => intro low high _ h; omega
  | succ fuel ih =>
    intro low high hlh hf
    rw [algorithmCFuel]
    rcases Nat.eq_or_lt_of_le hlh with heq | hlt
    · subst heq
      rw [if_pos rfl]
      cases hr : readAt a (low : Int) with
      | error e =>
        have := readAt_fault a _ e hr
        subst this
        simp
      | ok v => simp
    · have hne : ¬ ((low : Int) = (high : Int)) := by omega
      rw [if_neg hne, center_natCast]
      obtain ⟨c, hc⟩ : ∃ c, (low + high) / 2 = c := ⟨_, rfl⟩
      rw [hc]
      cases hl : algorithmC.leftLoop a ((c : Int) - (low : Int) + 1).toNat c ⟨0, -1, c⟩ with
      | error e =>
        have := algorithmC.leftLoop_fault a _ _ _ e hl
        subst this
        simp
      | ok l =>
        cases hr : algorithmC.rightLoop a ((high : Int) - (c : Int)).toNat ((c : Int) + 1)
            ⟨0, -1, (c : Int) + 1⟩ with
        | error e =>
          have := algorithmC.rightLoop_fault a _ _ _ e hr
          subst this
          simp
        | ok r =>
          have h1 := ih low c (by omega) (by omega)
          have h2 := ih (c + 1) high (by omega) (by omega)
          push_cast at h2
          cases hL : algorithmCFuel a fuel low c with
          | error e =>
            rw [hL] at h1
            simp only
            intro hcon
            injection hcon with hcon
            exact h1 (by rw [hcon])
          | ok left =>
            cases hR : algorithmCFuel a fuel ((c : Int) + 1) high with
            | error e =>
              rw [hR] at h2
              simp only
              intro hcon
              injection hcon with hcon
              exact h2 (by rw [hcon])
            | ok right => simp

/-! ### Claims about `algorithmC` -/

/-- C14: on a one-element range `[low, low]` inside the array `algorithmC`
returns value `s[low]`, start `low` and end `low`, whatever the sign of `s[low]`. -/
theorem base_case_returns_element (s : List Int) (low : Nat) (h : low < s.length) :
    algorithmC s low low = .ok ⟨s[low], low, low⟩ := by
  unfold algorithmC
  rw [sub_self]
  simp only [Int.toNat_zero, zero_add]
  rw [algorithmCFuel, if_pos rfl, readAt_natCast s low h, prefixSum_succ s low h]
  simp

theorem base_case_returns_element_witness :
    1 < ([3, -7, 2] : List Int).length ∧
      algorithmC [3, -7, 2] (1 : Nat) (1 : Nat) = .ok ⟨-7, (1 : Nat), (1 : Nat)⟩ :=
  ⟨by decide, base_case_returns_element [3, -7, 2] 1 (by decide)⟩

/-- In exact arithmetic: on a range `[low, high]` of two elements or more inside the array, all
of them negative, `algorithmC` returns exactly value 0, start `high + 1`, end
`low`. -/
theorem negative_range_sentinel (s : List Int) (low high : Nat) (hlt : low < high)
    (hh : high < s.length) (hneg : ∀ x ∈ subArray s low high, x < 0) :
    algorithmC s low high = .ok ⟨0, (high : Int) + 1, low⟩ := by
  obtain ⟨r, hr, hP⟩ := algorithmC_post s low high (by omega) hh
  rw [hP.sentinel_of_neg_sums hlt (segSum_neg_of_subArray_neg s low high hh hneg)] at hr
  exact hr

/-- In exact arithmetic: for `0 ≤ low < high` the `center` of `algorithmC` satisfies
`low ≤ center < high`, so both recursive ranges are non-empty and shorter; and
for `0 ≤ low ≤ high` the recursion ends within depth `high - low + 1` on every
array, with a result when the range lies inside the array. -/
theorem recursion_terminates (s : List Int) (low high : Int) (h0 : 0 ≤ low)
    (hlh : low ≤ high) :
    (low < high → low ≤ Int.tdiv (low + high) 2 ∧ Int.tdiv (low + high) 2 < high) ∧
      algorithmC s low high ≠ .error .outOfFuel ∧
      (high < s.length → ∃ r, algorithmC s low high = .ok r) := by
  obtain ⟨l, rfl⟩ := Int.eq_ofNat_of_zero_le h0
  obtain ⟨h, rfl⟩ := Int.eq_ofNat_of_zero_le (le_trans h0 hlh)
  have hlh' : l ≤ h := by omega
  have hfuel : ((h : Int) - (l : Int)).toNat + 1 = h - l + 1 := by omega
  refine ⟨?_, ?_, ?_⟩
  · intro hlt
    rw [center_natCast]
    omega
  · unfold algorithmC
    rw [hfuel]
    exact algorithmCFuel_fuel_suffices s (h - l + 1) l h hlh' (by omega)
  · intro hh
    obtain ⟨r, hr, _⟩ := algorithmC_post s l h hlh' (by omega)
    exact ⟨r, hr⟩

theorem CPost.value_eq_max {a : List Int} {low high : Nat} {r : Result} {M : Int}
    (h : CPost a low high r) (hlt : low < high) (hM : IsMaxRangeSum a low high M) :
    r.value = max 0 M := by
  obtain ⟨hb, h0, hs⟩ := h
  obtain ⟨⟨j0, hj0, i0, hi0, hl0, e0⟩, hMb⟩ := hM
  rw [rangeSum_eq_segSum a i0 j0 (by omega)] at e0
  have h1 := hb i0 j0 hl0 hi0 hj0
  have h2 := h0 hlt
  rcases hs with ⟨_, e⟩ | ⟨i, j, hi, hij, hj, e⟩
  · rw [e] at h1 ⊢
    simp only at h1 ⊢
    rw [max_eq_left (by omega)]
  · have h3 := hMb j hj i hij hi
    rw [rangeSum_eq_segSum a i j (by omega)] at h3
    rw [e] at h1 h2 ⊢
    simp only at h1 h2 ⊢
    rw [max_eq_right (by omega)]
    omega

theorem Post.value_eq_of_CPost_sub {a sub : List Int} {low high n : Nat} {r rc : Result}
    (h : Post sub n r) (hc : CPost a low high rc) (hlt : low < high) (hn : n = high + 1 - low)
    (hseg : ∀ i j, i ≤ j → j < n → segSum sub i j = segSum a (low + i) (low + j)) :
    r.value = rc.value := by
  obtain ⟨hb, h0, hs⟩ := hc
  have hc0 := h0 hlt
  rcases h with ⟨e, hall⟩ | ⟨i, j, hij, hj, e, hnn, hall⟩
  · rcases hs with ⟨_, ec⟩ | ⟨i', j', hi', hij', hj', ec⟩
    · rw [e, ec]
    · have h1 := hall (i' - low) (j' - low) (by omega) (by omega)
      rw [hseg (i' - low) (j' - low) (by omega) (by omega),
        show low + (i' - low) = i' by omega, show low + (j' - low) = j' by omega] at h1
      rw [ec] at hc0
      simp only at hc0
      omega
  · have h1 := hb (low + i) (low + j) (by omega) (by omega) (by omega)
    rw [← hseg i j hij hj] at h1
    rcases hs with ⟨_, ec⟩ | ⟨i', j', hi', hij', hj', ec⟩
    · rw [ec] at h1
      rw [e, ec]
      simp only at h1 ⊢
      omega
    · have h3 := hall (i' - low) (j' - low) (by omega) (by omega)
      rw [hseg (i' - low) (j' - low) (by omega) (by omega),
        show low + (i' - low) = i' by omega, show low + (j' - low) = j' by omega] at h3
      rw [ec] at h1
      rw [e, ec]
      simp only at h1 ⊢
      omega

/-- C13: on a range `[low, high]` of two elements or more inside the array, whose
greatest range sum is `M`, `algorithmC` returns value `max 0 M`, which is also the
value `algorithmD` returns on the elements `s[low], …, s[high]`. -/
theorem divide_and_conquer_value (s : List Int) (low high : Nat) (M : Int) (hlt : low < high)
    (hh : high < s.length) (hM : IsMaxRangeSum s low high M) :
    ∃ rc rd, algorithmC s low high = .ok rc ∧
      algorithmD (subArray s low high) ((high : Int) - low + 1) = .ok rd ∧
      rc.value = max 0 M ∧ rc.value = rd.value := by
  obtain ⟨rc, hrc, hPc⟩ := algorithmC_post s low high (by omega) hh
  have hlen := length_subArray s low high hh
  obtain ⟨rd, hrd, hPd⟩ := algorithmD_post (subArray s low high) (high + 1 - low) (by omega)
    (by omega)
  have e : (((high + 1 - low : Nat) : Int)) = (high : Int) - low + 1 := by omega
  rw [e] at hrd
  refine ⟨rc, rd, hrc, hrd, hPc.value_eq_max hlt hM, ?_⟩
  exact (hPd.value_eq_of_CPost_sub hPc hlt rfl
    (fun i j hij hj => segSum_subArray s low high i j hij (by omega))).symm

theorem divide_and_conquer_value_witness :
    1 < 4 ∧ 4 < ([9, -2, 3, -1, 2, -8] : List Int).length ∧
      IsMaxRangeSum [9, -2, 3, -1, 2, -8] 1 4 4 ∧
      ∃ rc rd, algorithmC [9, -2, 3, -1, 2, -8] (1 : Nat) (4 : Nat) = .ok rc ∧
        algorithmD (subArray [9, -2, 3, -1, 2, -8] 1 4) (((4 : Nat) : Int) - (1 : Nat) + 1)
          = .ok rd ∧
        rc.value = max 0 4 ∧ rc.value = rd.value :=
  ⟨by decide, by decide, by decide,
    divide_and_conquer_value [9, -2, 3, -1, 2, -8] 1 4 4 (by decide) (by decide) (by decide)⟩

theorem LInv.max_spec {a : List Int} {c low : Nat} {l : Scan} {M : Int}
    (h : LInv a c low l) (hM : IsMaxEndingAt a low c M) :
    (0 ≤ M → l.max = M ∧ (low : Int) ≤ l.idx ∧ l.idx ≤ c ∧ rangeSum a l.idx.toNat c = M) ∧
      (M < 0 → l.max = -1 ∧ l.idx = c) := by
  obtain ⟨_, hb, hi⟩ := h
  obtain ⟨⟨i0, hi0, hl0, e0⟩, hMb⟩ := hM
  rw [rangeSum_eq_segSum a i0 c (by omega)] at e0
  unfold segSum at e0
  have h1 := hb i0 hl0 hi0
  rcases hi with ⟨em, ei⟩ | ⟨li, hli1, hli2, ei, em, h0⟩
  · exact ⟨fun _ => by omega, fun _ => ⟨em, ei⟩⟩
  · have h2 := hMb li hli2 hli1
    rw [rangeSum_eq_segSum a li c (by omega)] at h2
    unfold segSum at h2
    refine ⟨fun _ => ⟨by omega, by omega, by omega, ?_⟩, fun _ => by omega⟩
    rw [ei, Int.toNat_natCast, rangeSum_eq_segSum a li c (by omega)]
    unfold segSum
    omega

theorem RInv.max_spec_right {a : List Int} {c high : Nat} {r : Scan} {M : Int}
    (h : RInv a c (high + 1) r) (hM : IsMaxStartingAt a (c + 1) high M) :
    (0 ≤ M → r.max = M ∧ (c : Int) + 1 ≤ r.idx ∧ r.idx ≤ high ∧
        rangeSum a (c + 1) r.idx.toNat = M) ∧
      (M < 0 → r.max = -1 ∧ r.idx = (c : Int) + 1) := by
  obtain ⟨_, hb, hi⟩ := h
  obtain ⟨⟨j0, hj0, hc0, e0⟩, hMb⟩ := hM
  rw [rangeSum_eq_segSum a (c + 1) j0 (by omega)] at e0
  unfold segSum at e0
  have h1 := hb j0 hc0 (by omega)
  rcases hi with ⟨em, ei⟩ | ⟨ri, hri1, hri2, ei, em, h0⟩
  · exact ⟨fun _ => by omega, fun _ => ⟨em, ei⟩⟩
  · have h2 := hMb ri (by omega) hri1
    rw [rangeSum_eq_segSum a (c + 1) ri (by omega)] at h2
    unfold segSum at h2
    refine ⟨fun _ => ⟨by omega, by omega, by omega, ?_⟩, fun _ => by omega⟩
    rw [ei, Int.toNat_natCast, rangeSum_eq_segSum a (c + 1) ri (by omega)]
    unfold segSum
    omega

/-- C20, as stated, fails: on `[-5, 1]` with `low = 0`, `high = 1` the first scan
ends with `leftMax = -1` and `leftIdx = 0`, while the only sum of a range ending
at `center = 0` is -5. -/
theorem left_scan_keeps_minus_one :
    algorithmC.leftLoop [-5, 1] (Int.tdiv (0 + 1) 2 - 0 + 1).toNat (Int.tdiv (0 + 1) 2)
        ⟨0, -1, Int.tdiv (0 + 1) 2⟩ = .ok ⟨-5, -1, 0⟩ ∧
      IsMaxEndingAt [-5, 1] 0 0 (-5) ∧ ¬ IsMaxEndingAt [-5, 1] 0 0 (-1) := by
  decide

/-- In exact arithmetic: on a range `[low, high]` of two elements or more inside the
array both scans finish; when the greatest sum of a range `[i, center]` with
`low ≤ i` is not negative, `leftMax` equals it and `leftIdx` is an index where it
occurs, and when it is negative `leftMax` is -1 and `leftIdx` is `center`;
symmetrically `rightMax` and `rightIdx` for the ranges `[center + 1, j]` with
`j ≤ high`, with `center + 1` in place of `center`. -/
theorem crossing_scans (s : List Int) (low high : Nat) (hlt : low < high)
    (hh : high < s.length) :
    ∃ l r,
      algorithmC.leftLoop s (Int.tdiv ((low : Int) + high) 2 - low + 1).toNat
        (Int.tdiv ((low : Int) + high) 2) ⟨0, -1, Int.tdiv ((low : Int) + high) 2⟩ = .ok l ∧
      algorithmC.rightLoop s ((high : Int) - Int.tdiv ((low : Int) + high) 2).toNat
        (Int.tdiv ((low : Int) + high) 2 + 1) ⟨0, -1, Int.tdiv ((low : Int) + high) 2 + 1⟩
        = .ok r ∧
      (∀ M, IsMaxEndingAt s low ((low + high) / 2) M →
        (0 ≤ M → l.max = M ∧ (low : Int) ≤ l.idx ∧ l.idx ≤ Int.tdiv ((low : Int) + high) 2 ∧
          rangeSum s l.idx.toNat ((low + high) / 2) = M) ∧
        (M < 0 → l.max = -1 ∧ l.idx = Int.tdiv ((low : Int) + high) 2)) ∧
      (∀ M, IsMaxStartingAt s ((low + high) / 2 + 1) high M →
        (0 ≤ M → r.max = M ∧ Int.tdiv ((low : Int) + high) 2 + 1 ≤ r.idx ∧ r.idx ≤ high ∧
          rangeSum s ((low + high) / 2 + 1) r.idx.toNat = M) ∧
        (M < 0 → r.max = -1 ∧ r.idx = Int.tdiv ((low : Int) + high) 2 + 1)) := by
  rw [center_natCast]
  obtain ⟨c, hc⟩ : ∃ c, (low + high) / 2 = c := ⟨_, rfl⟩
  rw [hc]
  have hc1 : low ≤ c := by omega
  have hc2 : c < high := by omega
  have hcl : ((c : Int) - (low : Int) + 1).toNat = c - low + 1 := by omega
  have hcr : ((high : Int) - (c : Int)).toNat = high - c := by omega
  obtain ⟨l, hl, hL⟩ := algorithmC.leftLoop_spec s low c (by omega) (c - low + 1)
    ⟨0, -1, c⟩ (by omega)
    (by rw [show low + (c - low + 1) = c + 1 by omega]; exact LInv.empty_left s c)
  have e1 : (((low + (c - low + 1) : Nat) : Int) - 1) = (c : Int) := by omega
  rw [e1] at hl
  obtain ⟨r, hr, hR⟩ := algorithmC.rightLoop_spec s c high hh (high - c) (c + 1)
    ⟨0, -1, (c : Int) + 1⟩ (by omega) (le_refl _) (RInv.empty_right s c)
  push_cast at hr
  exact ⟨l, r, by rw [hcl]; exact hl, by rw [hcr]; exact hr, fun M hM => hL.max_spec hM,
    fun M hM => hR.max_spec_right hM⟩

/-! ### The tie-break of `algorithmA` and `algorithmB` -/

theorem Seen.first_of_finish {a : List Int} {n : Nat} {b : Best} (h : Seen a n n n b) :
    ∃ r, b.finish n = .ok r ∧ PostFirst a n r := by
  have hall : ∀ i j, i ≤ j → j < n → segSum a i j ≤ b.maxSum :=
    fun i j h1 h2 => h.bound i j h1 h2 (Or.inl (by omega))
  rcases h.src with hb | ⟨i', j', h1, h2, _, hb, h0, hfirst⟩
  · subst hb
    refine ⟨⟨0, n, 0⟩, by simp [Best.finish], Or.inl ⟨rfl, ?_⟩⟩
    intro i j hij hj
    have := hall i j hij hj
    simp only at this
    omega
  · subst hb
    refine ⟨⟨segSum a i' j', i', j'⟩, ?_, Or.inr ⟨i', j', h1, h2, rfl, h0, ?_, hfirst⟩⟩
    · unfold Best.finish
      simp only
      rw [if_neg (by omega)]
    · intro i j hij hj
      exact hall i j hij hj

theorem algorithmB_postFirst (a : List Int) (n : Nat) (hn : n ≤ a.length) :
    ∃ r, algorithmB a n = .ok r ∧ PostFirst a n r := by
  obtain ⟨b, hb, hS⟩ := algorithmB.loopI_spec a n hn n 0 _ (by omega) (Seen.initial a n)
  obtain ⟨r, hr, hP⟩ := hS.first_of_finish
  refine ⟨r, ?_, hP⟩
  unfold algorithmB
  rw [Int.toNat_natCast]
  have hb' : algorithmB.loopI a n n 0 ⟨-1, none, none⟩ = .ok b := by exact_mod_cast hb
  rw [hb']
  exact hr

theorem algorithmA_postFirst (a : List Int) (n : Nat) (hn : n ≤ a.length) :
    ∃ r, algorithmA a n = .ok r ∧ PostFirst a n r := by
  rw [algorithmA_eq_algorithmB]
  exact algorithmB_postFirst a n hn

/-- In exact arithmetic: on a non-empty array whose greatest range sum `M` is not negative,
`algorithmA` returns a range `[start, end]` with sum `M`, and no pair `(i, j)`
with `i < start`, or with `i = start` and `j < end`, has sum `M`. -/
theorem brute_force_first_pair (s : List Int) (M : Int) (hne : s ≠ [])
    (hM : IsMaxSubSum s M) (h0 : 0 ≤ M) :
    ∃ r, algorithmA s s.length = .ok r ∧ r.value = M ∧ r.IsRange s s.length ∧
      ∀ i j : Nat, i ≤ j → j < s.length →
        ((i : Int) < r.start ∨ ((i : Int) = r.start ∧ (j : Int) < r.end_)) →
        rangeSum s i j ≠ M := by
  have hlen : 0 < s.length := List.length_pos.mpr hne
  obtain ⟨r, hr, hP⟩ := algorithmA_postFirst s s.length (le_refl _)
  obtain ⟨⟨j0, hj0, i0, hi0, e0⟩, hMb⟩ := hM
  rw [rangeSum_eq_segSum s i0 j0 (by omega)] at e0
  rcases hP with ⟨_, hall⟩ | ⟨i, j, hij, hj, e, _, hall, hfirst⟩
  · have := hall i0 j0 hi0 hj0
    omega
  · have h1 := hall i0 j0 hi0 hj0
    have h2 := hMb j hj i hij
    rw [rangeSum_eq_segSum s i j (by omega)] at h2
    have hv : segSum s i j = M := by omega
    subst e
    refine ⟨_, hr, hv, ⟨by simp only; omega, by simp only; omega, by simp only; omega, ?_⟩, ?_⟩
    · simp only [Int.toNat_natCast]
      exact rangeSum_eq_segSum s i j (by omega)
    · intro i' j' hij' hj' hbefore
      simp only at hbefore
      have hb : Before i j i' j' := by
        rcases hbefore with hb | ⟨hb1, hb2⟩
        · exact Or.inl (by omega)
        · exact Or.inr ⟨by omega, by omega⟩
      have := hfirst i' j' hij' hj' hb
      rw [rangeSum_eq_segSum s i' j' (by omega)]
      omega

/-! ### The states of the loop of `algorithmD` -/

theorem algorithmD.loop_add (a : List Int) :
    ∀ (c1 c2 : Nat) (i : Int) (st : Kadane),
      algorithmD.loop a (c1 + c2) i st
        = match algorithmD.loop a c1 i st with
          | .error e => .error e
          | .ok st' => algorithmD.loop a c2 (i + c1) st' := by
  intro c1
  induction c1 with
  | zero =>
    intro c2 i st
    simp [algorithmD.loop]
  | succ c1 ih =>
    intro c2 i st
    rw [show c1 + 1 + c2 = (c1 + c2) + 1 by omega, algorithmD.loop, algorithmD.loop]
    cases readAt a i with
    | error e => rfl
    | ok v =>
      simp only
      rw [ih c2 (i + 1) (st.step v i)]
      have : i + 1 + (c1 : Int) = i + ((c1 + 1 : Nat) : Int) := by push_cast; ring
      rw [this]

/-- In exact arithmetic: on a non-empty array, for every index `i` the loop of `algorithmD`
reaches a state after the iteration for `i` (the first state when `i = 0`), from
which the rest of the loop continues, and in that state `runningSum` is the
greatest sum of a range ending at `i`, `currentLeft` is a start that attains it,
and `maxSum` is the greatest sum of a range inside `[0, i]`. -/
theorem kadane_loop_invariant (s : List Int) (i : Nat) (hi : i < s.length) :
    ∃ a0 st, readAt s 0 = .ok a0 ∧ algorithmD.loop s i 1 (Kadane.start a0) = .ok st ∧
      algorithmD.loop s (s.length - 1) 1 (Kadane.start a0)
        = algorithmD.loop s (s.length - 1 - i) ((i : Int) + 1) st ∧
      IsMaxEndingAt s 0 i st.runningSum ∧
      (0 ≤ st.currentLeft ∧ st.currentLeft ≤ i ∧
        rangeSum s st.currentLeft.toNat i = st.runningSum) ∧
      IsMaxRangeSum s 0 i st.maxSum := by
  have hr := readAt_natCast s 0 (by omega)
  simp only [Nat.cast_zero, zero_add] at hr
  obtain ⟨st, hst, hK⟩ := algorithmD.loop_spec s (i + 1) (by omega) i 1 _ (by omega)
    (KInv.first s)
  simp only [Nat.cast_one, zero_add] at hst
  refine ⟨_, st, hr, hst, ?_, ?_⟩
  · have := algorithmD.loop_add s i (s.length - 1 - i) 1 (Kadane.start (prefixSum s 1 - prefixSum s 0))
    rw [show i + (s.length - 1 - i) = s.length - 1 by omega] at this
    rw [this]
    unfold Kadane.start
    rw [hst]
    simp only
    rw [add_comm]
  · obtain ⟨cl, l, r, hcl, hl, hr', h1, h2, h3, hrun, hrunmax, hmax, hmaxall⟩ := hK
    refine ⟨⟨⟨cl, by omega, Nat.zero_le _, ?_⟩, ?_⟩, ⟨by omega, by omega, ?_⟩,
      ⟨⟨r, by omega, l, h2, Nat.zero_le _, ?_⟩, ?_⟩⟩
    · rw [rangeSum_eq_segSum s cl i (by omega), hrun]; rfl
    · intro i' hi' _
      rw [rangeSum_eq_segSum s i' i (by omega)]
      exact hrunmax i' (by omega)
    · rw [hcl, Int.toNat_natCast, rangeSum_eq_segSum s cl i (by omega), hrun]; rfl
    · rw [rangeSum_eq_segSum s l r (by omega), hmax]
    · intro j hj i' hi' _
      rw [rangeSum_eq_segSum s i' j (by omega)]
      exact hmaxall i' j hi' (by omega)

/-! ### The tie-break of `algorithmD` -/

theorem KTie.tie_first (a : List Int) (a0 : Int) : KTie a 1 ⟨a0, a0, 0, 0, 0⟩ := by
  refine ⟨0, 0, 0, rfl, rfl, rfl, ?_, ?_, ?_⟩
  · intro l' hl'; omega
  · intro l' r' _ hr'; omega
  · intro l' hl'; omega

theorem KTie.tie_step {a : List Int} {i : Nat} {st : Kadane} (h : KInv a i st)
    (ht : KTie a i st) :
    KTie a (i + 1) (st.step (prefixSum a (i + 1) - prefixSum a i) i) := by
  rcases st with ⟨ms, rs, lf, rt, cl0⟩
  obtain ⟨cl, l, r, hcl, hl, hr, h1, h2, h3, hrun, hrunmax, hmax, hmaxall⟩ := h
  obtain ⟨cl', l', r', hcl', hl', hr', t1, t2, t3⟩ := ht
  simp only at hcl hl hr hrun hrunmax hmax hmaxall hcl' hl' hr' t1 t2 t3
  have ecl : cl' = cl := by omega
  have el : l' = l := by omega
  have er : r' = r := by omega
  subst ecl el er
  have hbelow : ∀ x < i, segSum a x i = prefixSum a (i + 1) - prefixSum a x := fun _ _ => rfl
  unfold Kadane.step KTie
  simp only
  split_ifs with hreset hbetter hbetter
  · simp only at hbetter ⊢
    have k1 : ∀ x < i, prefixSum a (i + 1) - prefixSum a x
        < prefixSum a (i + 1) - prefixSum a i := by
      intro x hx
      have := hrunmax x hx
      omega
    refine ⟨i, i, i, rfl, rfl, rfl, k1, ?_, ?_⟩
    · intro x y hxy hy
      have := hmaxall x y hxy hy
      omega
    · intro x hx
      rw [hbelow x hx]
      exact k1 x hx
  · simp only at hbetter ⊢
    refine ⟨i, l', r', rfl, hl, hr, ?_, t2, t3⟩
    intro x hx
    have := hrunmax x hx
    omega
  · simp only at hbetter ⊢
    have k1 : ∀ x < cl', prefixSum a (i + 1) - prefixSum a x
        < rs + (prefixSum a (i + 1) - prefixSum a i) := by
      intro x hx
      have := t1 x hx
      omega
    refine ⟨cl', cl', i, hcl, hcl, rfl, k1, ?_, ?_⟩
    · intro x y hxy hy
      have := hmaxall x y hxy hy
      omega
    · intro x hx
      rw [hbelow x (by omega)]
      exact k1 x hx
  · simp only at hbetter ⊢
    refine ⟨cl', l', r', hcl, hl, hr, ?_, t2, t3⟩
    intro x hx
    have := t1 x hx
    omega

theorem algorithmD.loop_tie (a : List Int) (n : Nat) (hn : n ≤ a.length) :
    ∀ (cnt i : Nat) (st : Kadane), i + cnt = n → KInv a i st → KTie a i st →
      ∃ st', algorithmD.loop a cnt i st = .ok st' ∧ KInv a n st' ∧ KTie a n st' := by
  intro cnt
  induction cnt with
  | zero =>
    intro i st hi h ht
    have : i = n := by omega
    subst this
    exact ⟨st, rfl, h, ht⟩
  | succ cnt ih =>
    intro i st hi h ht
    obtain ⟨st', hst', hK, hT⟩ := ih (i + 1) _ (by omega) h.kadane_step (ht.tie_step h)
    refine ⟨st', ?_, hK, hT⟩
    rw [algorithmD.loop, readAt_natCast a i (by omega)]
    simp only
    exact_mod_cast hst'

theorem algorithmD_postFirst (a : List Int) (n : Nat) (h0 : 0 < n) (hn : n ≤ a.length) :
    ∃ r, algorithmD a n = .ok r ∧ PostFirst a n r := by
  obtain ⟨st, hst, hK, hT⟩ :=
    algorithmD.loop_tie a n hn (n - 1) 1 _ (by omega) (KInv.first a) (KTie.tie_first a _)
  refine ⟨st.finish n, ?_, ?_⟩
  · unfold algorithmD
    have hr := readAt_natCast a 0 (by omega)
    simp only [Nat.cast_zero, zero_add] at hr
    rw [hr]
    simp only
    have hc : ((n : Int) - 1).toNat = n - 1 := by omega
    rw [hc]
    simp only [Nat.cast_one, zero_add] at hst
    rw [hst]
  · obtain ⟨cl, l, r, _, hl, hr, _, h2, h3, _, _, hmax, hmaxall⟩ := hK
    obtain ⟨cl', l', r', _, hl', hr', _, t2, t3⟩ := hT
    have el : l' = l := by omega
    have er : r' = r := by omega
    subst el er
    unfold Kadane.finish
    split_ifs with hneg
    · refine Or.inl ⟨rfl, ?_⟩
      intro i j hij hj
      have := hmaxall i j hij hj
      omega
    · refine Or.inr ⟨l', r', h2, h3, ?_, by omega, ?_, ?_⟩
      · rw [← hl, ← hr, ← hmax]
      · intro i j hij hj
        have := hmaxall i j hij hj
        omega
      · intro i j hij hj hb
        rw [← hmax]
        rcases hb with hb | ⟨hb1, hb2⟩
        · -- an earlier start: the range `[i, r']` is strictly below `maxSum`
          rcases Nat.lt_or_ge j r' with hjr | hjr
          · exact t2 i j hij hjr
          · have k1 := t3 i hb
            have k2 := hmaxall l' j (by omega) hj
            have k3 := hmaxall i j hij hj
            rcases Nat.eq_or_lt_of_le hjr with heq | hlt
            · rw [← heq]; exact k1
            · by_contra hcon
              have k4 : segSum a i j = st.maxSum := by omega
              unfold segSum at k1 k2 k4 hmax
              omega
        · subst hb1
          exact t2 i j hij hb2

theorem PostFirst.unique {a : List Int} {n : Nat} {r r' : Result}
    (h : PostFirst a n r) (h' : PostFirst a n r') : r = r' := by
  rcases h with ⟨e, hall⟩ | ⟨i, j, hij, hj, e, h0, hall, hfirst⟩
  · rcases h' with ⟨e', _⟩ | ⟨i', j', hij', hj', _, h0', _, _⟩
    · rw [e, e']
    · have := hall i' j' hij' hj'
      omega
  · rcases h' with ⟨_, hall'⟩ | ⟨i', j', hij', hj', e', h0', hall', hfirst'⟩
    · have := hall' i j hij hj
      omega
    · have k1 := hall i' j' hij' hj'
      have k2 := hall' i j hij hj
      have hv : segSum a i j = segSum a i' j' := by omega
      have n1 : ¬ Before i j i' j' := fun hb => by
        have := hfirst i' j' hij' hj' hb
        omega
      have n2 : ¬ Before i' j' i j := fun hb => by
        have := hfirst' i j hij hj hb
        omega
      unfold Before at n1 n2
      have ei : i = i' := by omega
      have ej : j = j' := by omega
      subst ei ej
      rw [e, e']

/-- C18: on a non-empty array `algorithmD` and `algorithmA` return the same
result, equal in value, start and end. -/
theorem linear_scan_same_range (s : List Int) (hne : s ≠ []) :
    ∃ r, algorithmD s s.length = .ok r ∧ algorithmA s s.length = .ok r := by
  have hlen : 0 < s.length := List.length_pos.mpr hne
  obtain ⟨rd, hrd, hPd⟩ := algorithmD_postFirst s s.length hlen (le_refl _)
  obtain ⟨ra, hra, hPa⟩ := algorithmA_postFirst s s.length (le_refl _)
  rw [← hPd.unique hPa] at hra
  exact ⟨rd, hrd, hra⟩

theorem linear_scan_same_range_witness :
    ([0, 2, -2, 2, 0] : List Int) ≠ [] ∧
      ∃ r, algorithmD [0, 2, -2, 2, 0] ([0, 2, -2, 2, 0] : List Int).length = .ok r ∧
        algorithmA [0, 2, -2, 2, 0] ([0, 2, -2, 2, 0] : List Int).length = .ok r :=
  ⟨by decide, linear_scan_same_range [0, 2, -2, 2, 0] (by decide)⟩

/-! ### Agreement of the `int` arithmetic with the exact one when no sum overflows -/

theorem wrap32_of_fits (x : Int) (h : FitsInt x) : wrap32 x = x := by
  unfold FitsInt INT_MIN INT_MAX at h
  unfold wrap32
  omega

theorem SumsFit.fits_segSum {a : List Int} {low n : Nat} (h : SumsFit a low n) (i j : Nat)
    (hi : low ≤ i) (hij : i ≤ j) (hj : j < n) : FitsInt (segSum a i j) := by
  have := h j hj i hij hi
  rw [rangeSum_eq_segSum a i j (by omega)] at this
  exact this

theorem SumsFit.narrow {a : List Int} {low n low' n' : Nat} (h : SumsFit a low n)
    (hl : low ≤ low') (hn : n' ≤ n) : SumsFit a low' n' :=
  fun j hj i hij hi => h j (by omega) i hij (by omega)

theorem algorithmA32.sumLoop_exact (a : List Int) (i n : Nat) (hn : n ≤ a.length)
    (hfit : SumsFit a 0 n) :
    ∀ (cnt k : Nat) (acc : Int), acc = prefixSum a k - prefixSum a i → i ≤ k → k + cnt ≤ n →
      algorithmA32.sumLoop a cnt k acc = algorithmA.sumLoop a cnt k acc := by
  intro cnt
  induction cnt with
  | zero => intro k acc _ _ _; rfl
  | succ cnt ih =>
    intro k acc hacc hik hk
    rw [algorithmA32.sumLoop, algorithmA.sumLoop, readAt_natCast a k (by omega)]
    simp only
    have e : acc + (prefixSum a (k + 1) - prefixSum a k) = segSum a i k := by
      unfold segSum; omega
    rw [e, wrap32_of_fits _ (hfit.fits_segSum i k (Nat.zero_le _) hik (by omega))]
    rw [show ((k : Int) + 1) = ((k + 1 : Nat) : Int) by push_cast; rfl]
    exact ih (k + 1) _ rfl (by omega) (by omega)

theorem algorithmA32.loopJ_exact (a : List Int) (i n : Nat) (hn : n ≤ a.length)
    (hfit : SumsFit a 0 n) :
    ∀ (cnt j : Nat) (b : Best), i ≤ j → j + cnt ≤ n →
      algorithmA32.loopJ a i cnt j b = algorithmA.loopJ a i cnt j b := by
  intro cnt
  induction cnt with
  | zero => intro j b _ _; rfl
  | succ cnt ih =>
    intro j b hij hj
    rw [algorithmA32.loopJ, algorithmA.loopJ]
    have hc : ((j : Int) + 1 - (i : Int)).toNat = j + 1 - i := by omega
    rw [hc, algorithmA32.sumLoop_exact a i n hn hfit (j + 1 - i) i 0 (by omega) (le_refl _)
      (by omega)]
    cases algorithmA.sumLoop a (j + 1 - i) i 0 with
    | error e => rfl
    | ok sum =>
      simp only
      rw [show ((j : Int) + 1) = ((j + 1 : Nat) : Int) by push_cast; rfl]
      exact ih (j + 1) _ (by omega) (by omega)

theorem algorithmA32.loopI_exact (a : List Int) (n : Nat) (hn : n ≤ a.length)
    (hfit : SumsFit a 0 n) :
    ∀ (cnt i : Nat) (b : Best), i + cnt = n →
      algorithmA32.loopI a n cnt i b = algorithmA.loopI a n cnt i b := by
  intro cnt
  induction cnt with
  | zero => intro i b _; rfl
  | succ cnt ih =>
    intro i b hi
    rw [algorithmA32.loopI, algorithmA.loopI]
    have hc : ((n : Int) - (i : Int)).toNat = n - i := by omega
    rw [hc, algorithmA32.loopJ_exact a i n hn hfit (n - i) i b (le_refl _) (by omega)]
    cases algorithmA.loopJ a i (n - i) i b with
    | error e => rfl
    | ok b' =>
      simp only
      rw [show ((i : Int) + 1) = ((i + 1 : Nat) : Int) by push_cast; rfl]
      exact ih (i + 1) b' (by omega)

/-- When no range sum of the first `n` elements overflows, `algorithmA` in `int`
arithmetic does what it does in exact arithmetic. -/
theorem algorithmA32_exact (a : List Int) (n : Nat) (hn : n ≤ a.length)
    (hfit : SumsFit a 0 n) : algorithmA32 a n = algorithmA a n := by
  unfold algorithmA32 algorithmA
  rw [Int.toNat_natCast]
  have := algorithmA32.loopI_exact a n hn hfit n 0 ⟨-1, none, none⟩ (by omega)
  simp only [Nat.cast_zero] at this
  rw [this]

theorem algorithmB32.loopJ_exactB (a : List Int) (i n : Nat) (hn : n ≤ a.length)
    (hfit : SumsFit a 0 n) :
    ∀ (cnt j : Nat) (sum : Int) (b : Best), sum = prefixSum a j - prefixSum a i → i ≤ j →
      j + cnt ≤ n →
      algorithmB32.loopJ a i cnt j sum b = algorithmB.loopJ a i cnt j sum b := by
  intro cnt
  induction cnt with
  | zero => intro j sum b _ _ _; rfl
  | succ cnt ih =>
    intro j sum b hsum hij hj
    rw [algorithmB32.loopJ, algorithmB.loopJ, readAt_natCast a j (by omega)]
    simp only
    have e : sum + (prefixSum a (j + 1) - prefixSum a j) = segSum a i j := by
      unfold segSum; omega
    rw [e, wrap32_of_fits _ (hfit.fits_segSum i j (Nat.zero_le _) hij (by omega))]
    rw [show ((j : Int) + 1) = ((j + 1 : Nat) : Int) by push_cast; rfl]
    exact ih (j + 1) _ _ rfl (by omega) (by omega)

theorem algorithmB32.loopI_exactB (a : List Int) (n : Nat) (hn : n ≤ a.length)
    (hfit : SumsFit a 0 n) :
    ∀ (cnt i : Nat) (b : Best), i + cnt = n →
      algorithmB32.loopI a n cnt i b = algorithmB.loopI a n cnt i b := by
  intro cnt
  induction cnt with
  | zero => intro i b _; rfl
  | succ cnt ih =>
    intro i b hi
    rw [algorithmB32.loopI, algorithmB.loopI]
    have hc : ((n : Int) - (i : Int)).toNat = n - i := by omega
    rw [hc, algorithmB32.loopJ_exactB a i n hn hfit (n - i) i 0 b (by omega) (le_refl _)
      (by omega)]
    cases algorithmB.loopJ a i (n - i) i 0 b with
    | error e => rfl
    | ok b' =>
      simp only
      rw [show ((i : Int) + 1) = ((i + 1 : Nat) : Int) by push_cast; rfl]
      exact ih (i + 1) b' (by omega)

/-- When no range sum of the first `n` elements overflows, `algorithmB` in `int`
arithmetic does what it does in exact arithmetic. -/
theorem algorithmB32_exact (a : List Int) (n : Nat) (hn : n ≤ a.length)
    (hfit : SumsFit a 0 n) : algorithmB32 a n = algorithmB a n := by
  unfold algorithmB32 algorithmB
  rw [Int.toNat_natCast]
  have := algorithmB32.loopI_exactB a n hn hfit n 0 ⟨-1, none, none⟩ (by omega)
  simp only [Nat.cast_zero] at this
  rw [this]

theorem Kadane.step32_exact (st : Kadane) (v i : Int) (h : FitsInt (st.runningSum + v)) :
    st.step32 v i = st.step v i := by
  unfold Kadane.step32 Kadane.step
  rw [wrap32_of_fits _ h]

theorem algorithmD32.loop_exact (a : List Int) (n : Nat) (hn : n ≤ a.length)
    (hfit : SumsFit a 0 n) :
    ∀ (cnt i : Nat) (st : Kadane), i + cnt ≤ n → KInv a i st →
      algorithmD32.loop a cnt i st = algorithmD.loop a cnt i st := by
  intro cnt
  induction cnt with
  | zero => intro i st _ _; rfl
  | succ cnt ih =>
    intro i st hi h
    rw [algorithmD32.loop, algorithmD.loop, readAt_natCast a i (by omega)]
    simp only
    have hf : FitsInt (st.runningSum + (prefixSum a (i + 1) - prefixSum a i)) := by
      obtain ⟨cl, l, r, _, _, _, h1, _, _, hrun, _, _, _⟩ := h
      have := hfit.fits_segSum cl i (Nat.zero_le _) (by omega) (by omega)
      unfold segSum at this
      rw [hrun]
      have e : prefixSum a i - prefixSum a cl + (prefixSum a (i + 1) - prefixSum a i)
          = prefixSum a (i + 1) - prefixSum a cl := by ring
      rw [e]
      exact this
    rw [Kadane.step32_exact _ _ _ hf]
    have := ih (i + 1) _ (by omega) h.kadane_step
    exact_mod_cast this

/-- When no range sum of the first `n` elements overflows, `algorithmD` in `int`
arithmetic does what it does in exact arithmetic. -/
theorem algorithmD32_exact (a : List Int) (n : Nat) (h0 : 0 < n) (hn : n ≤ a.length)
    (hfit : SumsFit a 0 n) : algorithmD32 a n = algorithmD a n := by
  unfold algorithmD32 algorithmD
  have hr := readAt_natCast a 0 (by omega)
  simp only [Nat.cast_zero, zero_add] at hr
  rw [hr]
  simp only
  have hc : ((n : Int) - 1).toNat = n - 1 := by omega
  rw [hc]
  have := algorithmD32.loop_exact a n hn hfit (n - 1) 1 _ (by omega) (KInv.first a)
  simp only [Nat.cast_one, zero_add] at this
  rw [this]

theorem Scan.scan_step32_exact (sc : Scan) (v i : Int) (h : FitsInt (sc.sum + v)) :
    sc.step32 v i = sc.step v i := by
  unfold Scan.step32 Scan.step
  rw [wrap32_of_fits _ h]

theorem algorithmC32.leftLoop_exact (a : List Int) (low c n : Nat) (hc : c < n)
    (hn : n ≤ a.length) (hfit : SumsFit a low n) :
    ∀ (cnt : Nat) (sc : Scan), low + cnt ≤ c + 1 → LInv a c (low + cnt) sc →
      algorithmC32.leftLoop a cnt (((low + cnt : Nat) : Int) - 1) sc
        = algorithmC.leftLoop a cnt (((low + cnt : Nat) : Int) - 1) sc := by
  intro cnt
  induction cnt with
  | zero => intro sc _ _; rfl
  | succ cnt ih =>
    intro sc hle h
    have e : (((low + (cnt + 1) : Nat) : Int) - 1) = ((low + cnt : Nat) : Int) := by
      push_cast; ring
    rw [algorithmC32.leftLoop, algorithmC.leftLoop, e, readAt_natCast a (low + cnt) (by omega)]
    simp only
    have hf : FitsInt (sc.sum + (prefixSum a (low + cnt + 1) - prefixSum a (low + cnt))) := by
      have := hfit.fits_segSum (low + cnt) c (by omega) (by omega) hc
      unfold segSum at this
      rw [h.1]
      have e2 : prefixSum a (c + 1) - prefixSum a (low + (cnt + 1))
          + (prefixSum a (low + cnt + 1) - prefixSum a (low + cnt))
          = prefixSum a (c + 1) - prefixSum a (low + cnt) := by
        rw [show low + (cnt + 1) = low + cnt + 1 by omega]; ring
      rw [e2]
      exact this
    rw [Scan.scan_step32_exact _ _ _ hf]
    exact ih _ (by omega) (LInv.left_step (k := low + cnt) h (by omega))

theorem algorithmC32.rightLoop_exact (a : List Int) (low c high : Nat) (hlc : low ≤ c + 1)
    (hh : high < a.length) (hsmall : high < 1073741824) (hfit : SumsFit a low (high + 1)) :
    ∀ (cnt m : Nat) (sc : Scan), m + cnt = high + 1 → c + 1 ≤ m → RInv a c m sc →
      algorithmC32.rightLoop a cnt m sc = algorithmC.rightLoop a cnt m sc := by
  intro cnt
  induction cnt with
  | zero => intro m sc _ _ _; rfl
  | succ cnt ih =>
    intro m sc hm hcm h
    rw [algorithmC32.rightLoop, algorithmC.rightLoop, readAt_natCast a m (by omega)]
    simp only
    have hf : FitsInt (sc.sum + (prefixSum a (m + 1) - prefixSum a m)) := by
      have := hfit.fits_segSum (c + 1) m hlc hcm (by omega)
      unfold segSum at this
      rw [h.1]
      have e2 : prefixSum a m - prefixSum a (c + 1) + (prefixSum a (m + 1) - prefixSum a m)
          = prefixSum a (m + 1) - prefixSum a (c + 1) := by ring
      rw [e2]
      exact this
    have hw : wrap32 ((m : Int) + 1) = ((m + 1 : Nat) : Int) := by
      rw [wrap32_of_fits _ (by unfold FitsInt INT_MIN INT_MAX; omega)]
      push_cast; rfl
    rw [Scan.scan_step32_exact _ _ _ hf, hw]
    have := ih (m + 1) _ (by omega) (by omega) (h.right_step hcm)
    rw [this]
    push_cast
    rfl

theorem algorithmC32.middle_exact {a : List Int} {low c high : Nat} {l r : Scan}
    (hlc : low ≤ c) (hch : c < high) (hsmall : high < 1073741824)
    (hfit : SumsFit a low (high + 1)) (hl : LInv a c low l) (hr : RInv a c (high + 1) r) :
    algorithmC32.middle low high l r = algorithmC.middle low high l r := by
  obtain ⟨_, _, hli⟩ := hl
  obtain ⟨_, _, hri⟩ := hr
  have hf : FitsInt (l.max + r.max) := by
    rcases hli with ⟨el, _⟩ | ⟨li, hli1, hli2, _, hli4, hli5⟩
    · rcases hri with ⟨er, _⟩ | ⟨ri, hri1, hri2, _, hri4, hri5⟩
      · rw [el, er]; decide
      · have := hfit.fits_segSum (c + 1) ri (by omega) hri1 (by omega)
        unfold segSum at this
        unfold FitsInt INT_MIN INT_MAX at this ⊢
        omega
    · rcases hri with ⟨er, _⟩ | ⟨ri, hri1, hri2, _, hri4, hri5⟩
      · have := hfit.fits_segSum li c hli1 hli2 (by omega)
        unfold segSum at this
        unfold FitsInt INT_MIN INT_MAX at this ⊢
        omega
      · have := hfit.fits_segSum li ri hli1 (by omega) (by omega)
        unfold segSum at this
        unfold FitsInt INT_MIN INT_MAX at this ⊢
        omega
  have hh : wrap32 ((high : Int) + 1) = (high : Int) + 1 :=
    wrap32_of_fits _ (by unfold FitsInt INT_MIN INT_MAX; omega)
  unfold algorithmC32.middle algorithmC.middle
  rw [wrap32_of_fits _ hf, hh]

/-- On a range inside the array with `high < 2^30`, none of whose range sums
overflows, `algorithmC` in `int` arithmetic does what it does in exact
arithmetic, for every fuel. -/
theorem algorithmC32Fuel_exact (a : List Int) :
    ∀ (fuel low high : Nat), low ≤ high → high < a.length → high < 1073741824 →
      SumsFit a low (high + 1) →
      algorithmC32Fuel a fuel low high = algorithmCFuel a fuel low high := by
  intro fuel
  induction fuel with
  | zero => intro low high _ _ _ _; rfl
  | succ fuel ih =>
    intro low high hlh hh hsmall hfit
    rw [algorithmC32Fuel, algorithmCFuel]
    have hw : wrap32 ((low : Int) + (high : Int)) = (low : Int) + (high : Int) :=
      wrap32_of_fits _ (by unfold FitsInt INT_MIN INT_MAX; omega)
    rw [hw]
    rcases Nat.eq_or_lt_of_le hlh with heq | hlt
    · subst heq
      rw [if_pos rfl, if_pos rfl]
    · have hne : ¬ ((low : Int) = (high : Int)) := by omega
      rw [if_neg hne, if_neg hne, center_natCast]
      obtain ⟨c, hc⟩ : ∃ c, (low + high) / 2 = c := ⟨_, rfl⟩
      rw [hc]
      have hc1 : low ≤ c := by omega
      have hc2 : c < high := by omega
      have hcl : ((c : Int) - (low : Int) + 1).toNat = c - low + 1 := by omega
      have hcr : ((high : Int) - (c : Int)).toNat = high - c := by omega
      have hmax : ¬ ((high : Int) = INT_MAX) := by unfold INT_MAX; omega
      have e1 : (((low + (c - low + 1) : Nat) : Int) - 1) = (c : Int) := by omega
      have hinit : LInv a c (low + (c - low + 1)) ⟨0, -1, c⟩ := by
        rw [show low + (c - low + 1) = c + 1 by omega]; exact LInv.empty_left a c
      obtain ⟨l, hl, hL⟩ := algorithmC.leftLoop_spec a low c (by omega) (c - low + 1)
        ⟨0, -1, c⟩ (by omega) hinit
      have hl32 := algorithmC32.leftLoop_exact a low c (high + 1) (by omega) (by omega) hfit
        (c - low + 1) ⟨0, -1, c⟩ (by omega) hinit
      rw [e1] at hl hl32
      obtain ⟨r, hr, hR⟩ := algorithmC.rightLoop_spec a c high hh (high - c) (c + 1)
        ⟨0, -1, (c : Int) + 1⟩ (by omega) (le_refl _) (RInv.empty_right a c)
      have hr32 := algorithmC32.rightLoop_exact a low c high (by omega) hh hsmall hfit
        (high - c) (c + 1) ⟨0, -1, (c : Int) + 1⟩ (by omega) (le_refl _) (RInv.empty_right a c)
      push_cast at hr hr32
      have ihL := ih low c hc1 (by omega) (by omega) (hfit.narrow (le_refl _) (by omega))
      have ihR := ih (c + 1) high (by omega) hh hsmall (hfit.narrow (by omega) (le_refl _))
      push_cast at ihR
      rw [if_neg hmax, hcl, hcr, hl32, hl, hr32, hr, ihL, ihR]
      simp only
      rw [algorithmC32.middle_exact hc1 hc2 hsmall hfit hL hR]

/-- On a range inside the array with `high < 2^30`, none of whose range sums
overflows, `algorithmC` in `int` arithmetic does what it does in exact
arithmetic. -/
theorem algorithmC32_exact (a : List Int) (low high : Nat) (hlh : low ≤ high)
    (hh : high < a.length) (hsmall : high < 1073741824) (hfit : SumsFit a low (high + 1)) :
    algorithmC32 a low high = algorithmC a low high := by
  unfold algorithmC32 algorithmC
  exact algorithmC32Fuel_exact a _ low high hlh hh hsmall hfit

/-! ### Termination of `algorithmC` in `int` arithmetic -/

theorem algorithmC32.leftLoop_fault32 (a : List Int) :
    ∀ (cnt : Nat) (i : Int) (sc : Scan) (e : Fault),
      algorithmC32.leftLoop a cnt i sc = .error e → e = .outOfBounds := by
  intro cnt
  induction cnt with
  | zero => intro i sc e h; cases h
  | succ cnt ih =>
    intro i sc e h
    rw [algorithmC32.leftLoop] at h
    cases hr : readAt a i with
    | error e' =>
      rw [hr] at h
      injection h with h
      subst h
      exact readAt_fault a i e' hr
    | ok v =>
      rw [hr] at h
      exact ih _ _ e h

theorem algorithmC32.rightLoop_fault32 (a : List Int) :
    ∀ (cnt : Nat) (i : Int) (sc : Scan) (e : Fault),
      algorithmC32.rightLoop a cnt i sc = .error e → e = .outOfBounds := by
  intro cnt
  induction cnt with
  | zero => intro i sc e h; cases h
  | succ cnt ih =>
    intro i sc e h
    rw [algorithmC32.rightLoop] at h
    cases hr : readAt a i with
    | error e' =>
      rw [hr] at h
      injection h with h
      subst h
      exact readAt_fault a i e' hr
    | ok v =>
      rw [hr] at h
      exact ih _ _ e h

/-- In `int` arithmetic, on a range with `low ≤ high < 2^30`, fuel above
`high - low` is never used up, whatever the array holds. -/
theorem algorithmC32Fuel_fuel_suffices (a : List Int) :
    ∀ (fuel low high : Nat), low ≤ high → high < 1073741824 → high - low < fuel →
      algorithmC32Fuel a fuel low high ≠ .error .outOfFuel := by
  intro fuel
  induction fuel with
  | zero => intro low high _ _ h; omega
  | succ fuel ih =>
    intro low high hlh hsmall hf
    rw [algorithmC32Fuel]
    have hw : wrap32 ((low : Int) + (high : Int)) = (low : Int) + (high : Int) :=
      wrap32_of_fits _ (by unfold FitsInt INT_MIN INT_MAX; omega)
    rw [hw]
    rcases Nat.eq_or_lt_of_le hlh with heq | hlt
    · subst heq
      rw [if_pos rfl]
      cases hr : readAt a (low : Int) with
      | error e =>
        have := readAt_fault a _ e hr
        subst this
        simp
      | ok v => simp
    · have hne : ¬ ((low : Int) = (high : Int)) := by omega
      rw [if_neg hne, center_natCast]
      obtain ⟨c, hc⟩ : ∃ c, (low + high) / 2 = c := ⟨_, rfl⟩
      rw [hc]
      cases hl : algorithmC32.leftLoop a ((c : Int) - (low : Int) + 1).toNat c ⟨0, -1, c⟩ with
      | error e =>
        have := algorithmC32.leftLoop_fault32 a _ _ _ e hl
        subst this
        simp
      | ok l =>
        cases hr : algorithmC32.rightLoop a
            (if (high : Int) = INT_MAX then ((high : Int) - (c : Int)).toNat + 1
              else ((high : Int) - (c : Int)).toNat) ((c : Int) + 1)
            ⟨0, -1, (c : Int) + 1⟩ with
        | error e =>
          have := algorithmC32.rightLoop_fault32 a _ _ _ e hr
          subst this
          simp
        | ok r =>
          have h1 := ih low c (by omega) (by omega) (by omega)
          have h2 := ih (c + 1) high (by omega) hsmall (by omega)
          push_cast at h2
          cases hL : algorithmC32Fuel a fuel low c with
          | error e =>
            rw [hL] at h1
            simp only
            intro hcon
            injection hcon with hcon
            exact h1 (by rw [hcon])
          | ok left =>
            cases hR : algorithmC32Fuel a fuel ((c : Int) + 1) high with
            | error e =>
              rw [hR] at h2
              simp only
              intro hcon
              injection hcon with hcon
              exact h2 (by rw [hcon])
            | ok right => simp

theorem algorithmC32.leftLoop_total (a : List Int) :
    ∀ (cnt : Nat) (i : Int) (sc : Scan), (cnt : Int) ≤ i + 1 → i < a.length →
      ∃ sc', algorithmC32.leftLoop a cnt i sc = .ok sc' := by
  intro cnt
  induction cnt with
  | zero => intro i sc _ _; exact ⟨sc, rfl⟩
  | succ cnt ih =>
    intro i sc h1 h2
    obtain ⟨k, rfl⟩ := Int.eq_ofNat_of_zero_le (show 0 ≤ i by omega)
    rw [algorithmC32.leftLoop, readAt_natCast a k (by omega)]
    exact ih _ _ (by omega) (by omega)

theorem algorithmC32.rightLoop_total (a : List Int) :
    ∀ (cnt m : Nat) (sc : Scan), m + cnt ≤ a.length → m + cnt ≤ 1073741824 →
      ∃ sc', algorithmC32.rightLoop a cnt m sc = .ok sc' := by
  intro cnt
  induction cnt with
  | zero => intro m sc _ _; exact ⟨sc, rfl⟩
  | succ cnt ih =>
    intro m sc h1 h2
    rw [algorithmC32.rightLoop, readAt_natCast a m (by omega)]
    have hw : wrap32 ((m : Int) + 1) = ((m + 1 : Nat) : Int) := by
      rw [wrap32_of_fits _ (by unfold FitsInt INT_MIN INT_MAX; omega)]
      push_cast; rfl
    simp only
    rw [hw]
    exact ih (m + 1) _ (by omega) (by omega)

/-- In `int` arithmetic, on a range inside the array with `low ≤ high < 2^30`,
fuel above `high - low` gives a result, overflowing sums or not. -/
theorem algorithmC32Fuel_total (a : List Int) :
    ∀ (fuel low high : Nat), low ≤ high → high < a.length → high < 1073741824 →
      high - low < fuel → ∃ r, algorithmC32Fuel a fuel low high = .ok r := by
  intro fuel
  induction fuel with
  | zero => intro low high _ _ _ h; omega
  | succ fuel ih =>
    intro low high hlh hh hsmall hf
    rw [algorithmC32Fuel]
    have hw : wrap32 ((low : Int) + (high : Int)) = (low : Int) + (high : Int) :=
      wrap32_of_fits _ (by unfold FitsInt INT_MIN INT_MAX; omega)
    rw [hw]
    rcases Nat.eq_or_lt_of_le hlh with heq | hlt
    · subst heq
      rw [if_pos rfl, readAt_natCast a low hh]
      exact ⟨_, rfl⟩
    · have hne : ¬ ((low : Int) = (high : Int)) := by omega
      rw [if_neg hne, center_natCast]
      obtain ⟨c, hc⟩ : ∃ c, (low + high) / 2 = c := ⟨_, rfl⟩
      rw [hc]
      have hmax : ¬ ((high : Int) = INT_MAX) := by unfold INT_MAX; omega
      have hcr : ((high : Int) - (c : Int)).toNat = high - c := by omega
      obtain ⟨l, hl⟩ := algorithmC32.leftLoop_total a ((c : Int) - (low : Int) + 1).toNat c
        ⟨0, -1, c⟩ (by omega) (by omega)
      obtain ⟨r, hr⟩ := algorithmC32.rightLoop_total a (high - c) (c + 1)
        ⟨0, -1, (c : Int) + 1⟩ (by omega) (by omega)
      obtain ⟨left, hleft⟩ := ih low c (by omega) (by omega) (by omega) (by omega)
      obtain ⟨right, hright⟩ := ih (c + 1) high (by omega) hh hsmall (by omega)
      push_cast at hr hright
      rw [if_neg hmax, hcr, hl, hr, hleft, hright]
      exact ⟨_, rfl⟩

/-! ### Claims that need the absence of overflow -/

theorem SumsFit.of_append {s : List Int} {x : Int} {n : Nat}
    (h : SumsFit (s ++ [x]) 0 n) (hn : n ≤ s.length) : SumsFit s 0 n := by
  intro j hj i hij hi
  have := h j hj i hij hi
  rw [rangeSum_eq_segSum _ i j (by omega), segSum_append s [x] i j hij (by omega)] at this
  rw [rangeSum_eq_segSum _ i j (by omega)]
  exact this

theorem algorithmC32_exact_whole (s : List Int) (h0 : 0 < s.length)
    (hlen : s.length ≤ 1073741824) (hfit : SumsFit s 0 s.length) :
    algorithmC32 s 0 ((s.length : Int) - 1) = algorithmC s 0 ((s.length : Int) - 1) := by
  have := algorithmC32_exact s 0 (s.length - 1) (Nat.zero_le _) (by omega) (by omega)
    (by rw [show s.length - 1 + 1 = s.length by omega]; exact hfit)
  rw [show (((s.length - 1 : Nat) : Int)) = (s.length : Int) - 1 by omega] at this
  exact_mod_cast this

/-- C4, as stated, fails: on `{INT_MIN, INT_MIN, 5}` the `int` sum of the whole
array wraps to 5, `algorithmA` returns value 5 with start 0 and end 2, and the
elements of that range do not sum to 5. -/
theorem positive_value_wrong_range :
    ∃ r, algorithmA32 [INT_MIN, INT_MIN, 5] 3 = .ok r ∧ 0 < r.value ∧
      rangeSum [INT_MIN, INT_MIN, 5] r.start.toNat r.end_.toNat ≠ r.value :=
  ⟨⟨5, 0, 2⟩, by decide, by decide, by decide⟩

/-- C4, amended: on a non-empty array of `n ≤ 2^30` elements none of whose range
sums overflows, each of the four algorithms returns a result (`algorithmC` on the
range `[0, n - 1]`), and a result whose value is positive has
`0 ≤ start ≤ end < n` and the sum of `[start, end]` as its value. -/
theorem positive_value_is_range_sum32 (s : List Int) (hne : s ≠ [])
    (hlen : s.length ≤ 1073741824) (hfit : SumsFit s 0 s.length) :
    ∃ ra rb rc rd, algorithmA32 s s.length = .ok ra ∧ algorithmB32 s s.length = .ok rb ∧
      algorithmC32 s 0 ((s.length : Int) - 1) = .ok rc ∧ algorithmD32 s s.length = .ok rd ∧
      (0 < ra.value → ra.IsRange s s.length) ∧ (0 < rb.value → rb.IsRange s s.length) ∧
      (0 < rc.value → rc.IsRange s s.length) ∧ (0 < rd.value → rd.IsRange s s.length) := by
  have h0 : 0 < s.length := List.length_pos.mpr hne
  rw [algorithmA32_exact s s.length (le_refl _) hfit,
    algorithmB32_exact s s.length (le_refl _) hfit,
    algorithmD32_exact s s.length h0 (le_refl _) hfit,
    algorithmC32_exact_whole s h0 hlen hfit]
  exact positive_value_is_range_sum s hne

theorem positive_value_is_range_sum32_witness :
    ([2, -3, 4] : List Int) ≠ [] ∧ ([2, -3, 4] : List Int).length ≤ 1073741824 ∧
      SumsFit [2, -3, 4] 0 ([2, -3, 4] : List Int).length ∧
      ∃ ra rb rc rd, algorithmA32 [2, -3, 4] ([2, -3, 4] : List Int).length = .ok ra ∧
        algorithmB32 [2, -3, 4] ([2, -3, 4] : List Int).length = .ok rb ∧
        algorithmC32 [2, -3, 4] 0 ((([2, -3, 4] : List Int).length : Int) - 1) = .ok rc ∧
        algorithmD32 [2, -3, 4] ([2, -3, 4] : List Int).length = .ok rd ∧
        (0 < ra.value → ra.IsRange [2, -3, 4] ([2, -3, 4] : List Int).length) ∧
        (0 < rb.value → rb.IsRange [2, -3, 4] ([2, -3, 4] : List Int).length) ∧
        (0 < rc.value → rc.IsRange [2, -3, 4] ([2, -3, 4] : List Int).length) ∧
        (0 < rd.value → rd.IsRange [2, -3, 4] ([2, -3, 4] : List Int).length) :=
  ⟨by decide, by decide, by decide,
    positive_value_is_range_sum32 [2, -3, 4] (by decide) (by decide) (by decide)⟩

/-- C7, as stated, fails: on `{-1, INT_MIN, 0}` the left scan of `algorithmC`
wraps and the value returned is `INT_MAX`; after appending 1 the value is 1. -/
theorem append_lowers_value :
    ∃ rc rc', algorithmC32 [-1, INT_MIN, 0] 0 2 = .ok rc ∧
      algorithmC32 ([-1, INT_MIN, 0] ++ [1]) 0 3 = .ok rc' ∧ (0 : Int) ≤ 1 ∧
      rc'.value < rc.value :=
  ⟨⟨INT_MAX, 0, 2⟩, ⟨1, 2, 3⟩, by decide, by decide, by decide, by decide⟩

/-- C7, amended: when the array `s` followed by `x` has at most `2^30` elements
and none of its range sums overflows, appending the element `x ≥ 0` to the
non-empty `s` never lowers the value any of the four algorithms returns
(`algorithmC` on `[0, n]` against `[0, n - 1]`), and all eight calls return a
result. -/
theorem append_nonneg_value_mono32 (s : List Int) (x : Int) (hne : s ≠ []) (hx : 0 ≤ x)
    (hlen : s.length + 1 ≤ 1073741824) (hfit : SumsFit (s ++ [x]) 0 (s.length + 1)) :
    ∃ ra ra' rb rb' rc rc' rd rd',
      algorithmA32 s s.length = .ok ra ∧
      algorithmA32 (s ++ [x]) ((s.length : Int) + 1) = .ok ra' ∧
      algorithmB32 s s.length = .ok rb ∧
      algorithmB32 (s ++ [x]) ((s.length : Int) + 1) = .ok rb' ∧
      algorithmC32 s 0 ((s.length : Int) - 1) = .ok rc ∧
      algorithmC32 (s ++ [x]) 0 (s.length : Int) = .ok rc' ∧
      algorithmD32 s s.length = .ok rd ∧
      algorithmD32 (s ++ [x]) ((s.length : Int) + 1) = .ok rd' ∧
      ra.value ≤ ra'.value ∧ rb.value ≤ rb'.value ∧ rc.value ≤ rc'.value ∧
      rd.value ≤ rd'.value := by
  have h0 : 0 < s.length := List.length_pos.mpr hne
  have hlen' : (s ++ [x]).length = s.length + 1 := by simp
  have hfit0 : SumsFit s 0 s.length := (hfit.narrow (le_refl _) (by omega)).of_append (le_refl _)
  have eA := algorithmA32_exact (s ++ [x]) (s.length + 1) (by omega) hfit
  have eB := algorithmB32_exact (s ++ [x]) (s.length + 1) (by omega) hfit
  have eD := algorithmD32_exact (s ++ [x]) (s.length + 1) (by omega) (by omega) hfit
  have eC := algorithmC32_exact (s ++ [x]) 0 s.length (Nat.zero_le _) (by omega) (by omega) hfit
  push_cast at eA eB eD eC
  rw [algorithmA32_exact s s.length (le_refl _) hfit0,
    algorithmB32_exact s s.length (le_refl _) hfit0,
    algorithmD32_exact s s.length h0 (le_refl _) hfit0,
    algorithmC32_exact_whole s h0 (by omega) hfit0, eA, eB, eD, eC]
  exact append_nonneg_value_mono s x hne hx

theorem append_nonneg_value_mono32_witness :
    ([-5] : List Int) ≠ [] ∧ (0 : Int) ≤ 0 ∧ ([-5] : List Int).length + 1 ≤ 1073741824 ∧
    SumsFit ([-5] ++ [0]) 0 (([-5] : List Int).length + 1) ∧
    ∃ ra ra' rb rb' rc rc' rd rd',
      algorithmA32 [-5] ([-5] : List Int).length = .ok ra ∧
      algorithmA32 ([-5] ++ [0]) ((([-5] : List Int).length : Int) + 1) = .ok ra' ∧
      algorithmB32 [-5] ([-5] : List Int).length = .ok rb ∧
      algorithmB32 ([-5] ++ [0]) ((([-5] : List Int).length : Int) + 1) = .ok rb' ∧
      algorithmC32 [-5] 0 ((([-5] : List Int).length : Int) - 1) = .ok rc ∧
      algorithmC32 ([-5] ++ [0]) 0 (([-5] : List Int).length : Int) = .ok rc' ∧
      algorithmD32 [-5] ([-5] : List Int).length = .ok rd ∧
      algorithmD32 ([-5] ++ [0]) ((([-5] : List Int).length : Int) + 1) = .ok rd' ∧
      ra.value ≤ ra'.value ∧ rb.value ≤ rb'.value ∧ rc.value ≤ rc'.value ∧
      rd.value ≤ rd'.value :=
  ⟨by decide, by decide, by decide, by decide,
    append_nonneg_value_mono32 [-5] 0 (by decide) (by decide) (by decide) (by decide)⟩

/-- C11, as stated, fails: on `{INT_MIN, INT_MIN, 5}` the greatest range sum is 5,
attained by `[2, 2]` only, and `algorithmA` returns start 0 and end 2, a range
whose elements do not sum to 5. -/
theorem brute_force_wrong_pair :
    IsMaxSubSum [INT_MIN, INT_MIN, 5] 5 ∧
      ∃ r, algorithmA32 [INT_MIN, INT_MIN, 5] 3 = .ok r ∧
        rangeSum [INT_MIN, INT_MIN, 5] r.start.toNat r.end_.toNat ≠ 5 :=
  ⟨by decide, ⟨5, 0, 2⟩, by decide, by decide⟩

/-- C11, amended: on a non-empty array none of whose range sums overflows and
whose greatest range sum `M` is not negative, `algorithmA` returns a range
`[start, end]` with sum `M`, and no pair `(i, j)` with `i < start`, or with
`i = start` and `j < end`, has sum `M`. -/
theorem brute_force_first_pair32 (s : List Int) (M : Int) (hne : s ≠ [])
    (hfit : SumsFit s 0 s.length) (hM : IsMaxSubSum s M) (h0 : 0 ≤ M) :
    ∃ r, algorithmA32 s s.length = .ok r ∧ r.value = M ∧ r.IsRange s s.length ∧
      ∀ i j : Nat, i ≤ j → j < s.length →
        ((i : Int) < r.start ∨ ((i : Int) = r.start ∧ (j : Int) < r.end_)) →
        rangeSum s i j ≠ M := by
  rw [algorithmA32_exact s s.length (le_refl _) hfit]
  exact brute_force_first_pair s M hne hM h0

theorem brute_force_first_pair32_witness :
    ([1, -1, 1, 0] : List Int) ≠ [] ∧ SumsFit [1, -1, 1, 0] 0 ([1, -1, 1, 0] : List Int).length ∧
      IsMaxSubSum [1, -1, 1, 0] 1 ∧ (0 : Int) ≤ 1 ∧
      ∃ r, algorithmA32 [1, -1, 1, 0] ([1, -1, 1, 0] : List Int).length = .ok r ∧
        r.value = 1 ∧ r.IsRange [1, -1, 1, 0] ([1, -1, 1, 0] : List Int).length ∧
        ∀ i j : Nat, i ≤ j → j < ([1, -1, 1, 0] : List Int).length →
          ((i : Int) < r.start ∨ ((i : Int) = r.start ∧ (j : Int) < r.end_)) →
          rangeSum [1, -1, 1, 0] i j ≠ 1 :=
  ⟨by decide, by decide, by decide, by decide,
    brute_force_first_pair32 [1, -1, 1, 0] 1 (by decide) (by decide) (by decide) (by decide)⟩

/-- C12, as stated, fails: on `{INT_MAX, 1}` the sum `runningSum + array[ 1 ]`
wraps, the iteration for index 1 leaves `runningSum = 1` and `maxSum = INT_MAX`,
and neither is the greatest sum it is claimed to be (which is `INT_MAX + 1`). -/
theorem kadane_state_after_overflow :
    ∃ st, algorithmD32.loop [INT_MAX, 1] 1 1 (Kadane.start INT_MAX) = .ok st ∧
      ¬ IsMaxEndingAt [INT_MAX, 1] 0 1 st.runningSum ∧
      ¬ IsMaxRangeSum [INT_MAX, 1] 0 1 st.maxSum :=
  ⟨⟨INT_MAX, 1, 0, 0, 1⟩, by decide, by decide, by decide⟩

/-- C12, amended: on a non-empty array none of whose range sums overflows, for
every index `i` the loop of `algorithmD` reaches a state after the iteration for
`i` (the first state when `i = 0`), from which the rest of the loop continues,
and in that state `runningSum` is the greatest sum of a range ending at `i`,
`currentLeft` is a start that attains it, and `maxSum` is the greatest sum of a
range inside `[0, i]`. -/
theorem kadane_loop_invariant32 (s : List Int) (i : Nat) (hi : i < s.length)
    (hfit : SumsFit s 0 s.length) :
    ∃ a0 st, readAt s 0 = .ok a0 ∧ algorithmD32.loop s i 1 (Kadane.start a0) = .ok st ∧
      algorithmD32.loop s (s.length - 1) 1 (Kadane.start a0)
        = algorithmD32.loop s (s.length - 1 - i) ((i : Int) + 1) st ∧
      IsMaxEndingAt s 0 i st.runningSum ∧
      (0 ≤ st.currentLeft ∧ st.currentLeft ≤ i ∧
        rangeSum s st.currentLeft.toNat i = st.runningSum) ∧
      IsMaxRangeSum s 0 i st.maxSum := by
  obtain ⟨a0, st, hr, hst, hrest, hinv⟩ := kadane_loop_invariant s i hi
  have hr0 := readAt_natCast s 0 (by omega)
  simp only [Nat.cast_zero, zero_add] at hr0
  have ha0 : a0 = prefixSum s 1 - prefixSum s 0 := by
    rw [hr0] at hr
    injection hr with hr
    exact hr.symm
  have hK1 : KInv s 1 (Kadane.start a0) := by
    rw [ha0]; exact KInv.first s
  obtain ⟨st', hst', hK⟩ := algorithmD.loop_spec s (i + 1) (by omega) i 1 _ (by omega) hK1
  simp only [Nat.cast_one] at hst'
  have est : st' = st := by
    rw [hst] at hst'
    injection hst' with hst'
    exact hst'.symm
  subst est
  have e1 := algorithmD32.loop_exact s s.length (le_refl _) hfit i 1 _ (by omega) hK1
  have e2 := algorithmD32.loop_exact s s.length (le_refl _) hfit (s.length - 1) 1 _ (by omega)
    hK1
  have e3 := algorithmD32.loop_exact s s.length (le_refl _) hfit (s.length - 1 - i) (i + 1) st'
    (by omega) hK
  push_cast at e1 e2 e3
  refine ⟨a0, st', hr, ?_, ?_, hinv⟩
  · rw [e1]; exact hst
  · rw [e2, e3]; exact hrest

theorem kadane_loop_invariant32_witness :
    2 < ([4, -6, 5, 1] : List Int).length ∧
    SumsFit [4, -6, 5, 1] 0 ([4, -6, 5, 1] : List Int).length ∧
    ∃ a0 st, readAt [4, -6, 5, 1] 0 = .ok a0 ∧
      algorithmD32.loop [4, -6, 5, 1] 2 1 (Kadane.start a0) = .ok st ∧
      algorithmD32.loop [4, -6, 5, 1] (([4, -6, 5, 1] : List Int).length - 1) 1
          (Kadane.start a0)
        = algorithmD32.loop [4, -6, 5, 1] (([4, -6, 5, 1] : List Int).length - 1 - 2)
            (((2 : Nat) : Int) + 1) st ∧
      IsMaxEndingAt [4, -6, 5, 1] 0 2 st.runningSum ∧
      (0 ≤ st.currentLeft ∧ st.currentLeft ≤ (2 : Nat) ∧
        rangeSum [4, -6, 5, 1] st.currentLeft.toNat 2 = st.runningSum) ∧
      IsMaxRangeSum [4, -6, 5, 1] 0 2 st.maxSum :=
  ⟨by decide, by decide, kadane_loop_invariant32 [4, -6, 5, 1] 2 (by decide) (by decide)⟩

/-- C16, as stated, fails: on four elements `INT_MIN`, all negative, the crossing
sums wrap to 0 and `algorithmC` on `[0, 3]` returns value 0 with start 0 and end
3, not start 4 and end 0. -/
theorem negative_range_no_sentinel :
    (∀ x ∈ subArray [INT_MIN, INT_MIN, INT_MIN, INT_MIN] 0 3, x < 0) ∧
      algorithmC32 [INT_MIN, INT_MIN, INT_MIN, INT_MIN] 0 3 = .ok ⟨0, 0, 3⟩ :=
  ⟨by decide, by decide⟩

/-- C16, amended: on a range `[low, high]` of two elements or more inside the
array, with `high < 2^30`, all of them negative and none of its range sums
overflowing, `algorithmC` returns exactly value 0, start `high + 1`, end `low`. -/
theorem negative_range_sentinel32 (s : List Int) (low high : Nat) (hlt : low < high)
    (hh : high < s.length) (hsmall : high < 1073741824) (hfit : SumsFit s low (high + 1))
    (hneg : ∀ x ∈ subArray s low high, x < 0) :
    algorithmC32 s low high = .ok ⟨0, (high : Int) + 1, low⟩ := by
  rw [algorithmC32_exact s low high (by omega) hh hsmall hfit]
  exact negative_range_sentinel s low high hlt hh hneg

theorem negative_range_sentinel32_witness :
    1 < 3 ∧ 3 < ([5, -1, -3, -5, 4] : List Int).length ∧ 3 < 1073741824 ∧
      SumsFit [5, -1, -3, -5, 4] 1 (3 + 1) ∧
      (∀ x ∈ subArray [5, -1, -3, -5, 4] 1 3, x < 0) ∧
      algorithmC32 [5, -1, -3, -5, 4] (1 : Nat) (3 : Nat)
        = .ok ⟨0, ((3 : Nat) : Int) + 1, (1 : Nat)⟩ :=
  ⟨by decide, by decide, by decide, by decide, by decide,
    negative_range_sentinel32 [5, -1, -3, -5, 4] 1 3 (by decide) (by decide) (by decide)
      (by decide) (by decide)⟩

/-- C17, as stated, fails: for `low = 2^30` and `high = 2^30 + 1` the `int` sum
`low + high` wraps and `center` is negative, below `low`. -/
theorem center_below_low :
    (0 : Int) ≤ 1073741824 ∧ (1073741824 : Int) < 1073741825 ∧
      ¬ ((1073741824 : Int) ≤ Int.tdiv (wrap32 (1073741824 + 1073741825)) 2) := by
  decide

/-- C17, amended: for `0 ≤ low < high < 2^30` the `center` of `algorithmC`
satisfies `low ≤ center < high`, so both recursive ranges are non-empty and
shorter; and for `0 ≤ low ≤ high < 2^30` the recursion ends within depth
`high - low + 1` on every array, with a result when the range lies inside the
array. -/
theorem recursion_terminates32 (s : List Int) (low high : Int) (h0 : 0 ≤ low)
    (hlh : low ≤ high) (hsmall : high < 1073741824) :
    (low < high →
        low ≤ Int.tdiv (wrap32 (low + high)) 2 ∧ Int.tdiv (wrap32 (low + high)) 2 < high) ∧
      algorithmC32 s low high ≠ .error .outOfFuel ∧
      (high < s.length → ∃ r, algorithmC32 s low high = .ok r) := by
  obtain ⟨l, rfl⟩ := Int.eq_ofNat_of_zero_le h0
  obtain ⟨h, rfl⟩ := Int.eq_ofNat_of_zero_le (le_trans h0 hlh)
  have hlh' : l ≤ h := by omega
  have hs : h < 1073741824 := by omega
  have hfuel : ((h : Int) - (l : Int)).toNat + 1 = h - l + 1 := by omega
  have hw : wrap32 ((l : Int) + (h : Int)) = (l : Int) + (h : Int) :=
    wrap32_of_fits _ (by unfold FitsInt INT_MIN INT_MAX; omega)
  refine ⟨?_, ?_, ?_⟩
  · intro hlt
    rw [hw, center_natCast]
    omega
  · unfold algorithmC32
    rw [hfuel]
    exact algorithmC32Fuel_fuel_suffices s (h - l + 1) l h hlh' hs (by omega)
  · intro hh
    unfold algorithmC32
    rw [hfuel]
    exact algorithmC32Fuel_total s (h - l + 1) l h hlh' (by omega) hs (by omega)

theorem recursion_terminates32_witness :
    (0 : Int) ≤ 0 ∧ (0 : Int) ≤ 2 ∧ (2 : Int) < 1073741824 ∧
      (((0 : Int) < 2 →
          (0 : Int) ≤ Int.tdiv (wrap32 (0 + 2)) 2 ∧ Int.tdiv (wrap32 (0 + 2)) 2 < 2) ∧
        algorithmC32 test9 0 2 ≠ .error .outOfFuel ∧
        ((2 : Int) < test9.length → ∃ r, algorithmC32 test9 0 2 = .ok r)) :=
  ⟨by decide, by decide, by decide,
    recursion_terminates32 test9 0 2 (by decide) (by decide) (by decide)⟩

/-- C20, amended: on a range `[low, high]` of two elements or more inside the
array, with `high < 2^30` and none of its range sums overflowing, both scans
finish; when the greatest sum of a range `[i, center]` with `low ≤ i` is not
negative, `leftMax` equals it and `leftIdx` is an index where it occurs, and when
it is negative `leftMax` is -1 and `leftIdx` is `center`; symmetrically
`rightMax` and `rightIdx` for the ranges `[center + 1, j]` with `j ≤ high`, with
`center + 1` in place of `center`. -/
theorem crossing_scans32 (s : List Int) (low high : Nat) (hlt : low < high)
    (hh : high < s.length) (hsmall : high < 1073741824) (hfit : SumsFit s low (high + 1)) :
    ∃ l r,
      algorithmC32.leftLoop s (Int.tdiv (wrap32 ((low : Int) + high)) 2 - low + 1).toNat
        (Int.tdiv (wrap32 ((low : Int) + high)) 2)
        ⟨0, -1, Int.tdiv (wrap32 ((low : Int) + high)) 2⟩ = .ok l ∧
      algorithmC32.rightLoop s
        (if (high : Int) = INT_MAX
          then ((high : Int) - Int.tdiv (wrap32 ((low : Int) + high)) 2).toNat + 1
          else ((high : Int) - Int.tdiv (wrap32 ((low : Int) + high)) 2).toNat)
        (Int.tdiv (wrap32 ((low : Int) + high)) 2 + 1)
        ⟨0, -1, Int.tdiv (wrap32 ((low : Int) + high)) 2 + 1⟩ = .ok r ∧
      (∀ M, IsMaxEndingAt s low ((low + high) / 2) M →
        (0 ≤ M → l.max = M ∧ (low : Int) ≤ l.idx ∧
          l.idx ≤ Int.tdiv (wrap32 ((low : Int) + high)) 2 ∧
          rangeSum s l.idx.toNat ((low + high) / 2) = M) ∧
        (M < 0 → l.max = -1 ∧ l.idx = Int.tdiv (wrap32 ((low : Int) + high)) 2)) ∧
      (∀ M, IsMaxStartingAt s ((low + high) / 2 + 1) high M →
        (0 ≤ M → r.max = M ∧ Int.tdiv (wrap32 ((low : Int) + high)) 2 + 1 ≤ r.idx ∧
          r.idx ≤ high ∧ rangeSum s ((low + high) / 2 + 1) r.idx.toNat = M) ∧
        (M < 0 → r.max = -1 ∧ r.idx = Int.tdiv (wrap32 ((low : Int) + high)) 2 + 1)) := by
  have hw : wrap32 ((low : Int) + (high : Int)) = (low : Int) + (high : Int) :=
    wrap32_of_fits _ (by unfold FitsInt INT_MIN INT_MAX; omega)
  have hmax : ¬ ((high : Int) = INT_MAX) := by unfold INT_MAX; omega
  rw [hw, if_neg hmax, center_natCast]
  obtain ⟨c, hc⟩ : ∃ c, (low + high) / 2 = c := ⟨_, rfl⟩
  rw [hc]
  have hc1 : low ≤ c := by omega
  have hc2 : c < high := by omega
  have hcl : ((c : Int) - (low : Int) + 1).toNat = c - low + 1 := by omega
  have hcr : ((high : Int) - (c : Int)).toNat = high - c := by omega
  have e1 : (((low + (c - low + 1) : Nat) : Int) - 1) = (c : Int) := by omega
  have hinit : LInv s c (low + (c - low + 1)) ⟨0, -1, c⟩ := by
    rw [show low + (c - low + 1) = c + 1 by omega]; exact LInv.empty_left s c
  obtain ⟨l, hl, hL⟩ := algorithmC.leftLoop_spec s low c (by omega) (c - low + 1)
    ⟨0, -1, c⟩ (by omega) hinit
  have hl32 := algorithmC32.leftLoop_exact s low c (high + 1) (by omega) (by omega) hfit
    (c - low + 1) ⟨0, -1, c⟩ (by omega) hinit
  rw [e1] at hl hl32
  obtain ⟨r, hr, hR⟩ := algorithmC.rightLoop_spec s c high hh (high - c) (c + 1)
    ⟨0, -1, (c : Int) + 1⟩ (by omega) (le_refl _) (RInv.empty_right s c)
  have hr32 := algorithmC32.rightLoop_exact s low c high (by omega) hh hsmall hfit
    (high - c) (c + 1) ⟨0, -1, (c : Int) + 1⟩ (by omega) (le_refl _) (RInv.empty_right s c)
  push_cast at hr hr32
  exact ⟨l, r, by rw [hcl, hl32]; exact hl, by rw [hcr, hr32]; exact hr,
    fun M hM => hL.max_spec hM, fun M hM => hR.max_spec_right hM⟩

theorem crossing_scans32_witness :
    0 < 3 ∧ 3 < ([-5, 2, 3, -4] : List Int).length ∧ 3 < 1073741824 ∧
    SumsFit [-5, 2, 3, -4] 0 (3 + 1) ∧
    ∃ l r,
      algorithmC32.leftLoop [-5, 2, 3, -4]
        (Int.tdiv (wrap32 (((0 : Nat) : Int) + (3 : Nat))) 2 - (0 : Nat) + 1).toNat
        (Int.tdiv (wrap32 (((0 : Nat) : Int) + (3 : Nat))) 2)
        ⟨0, -1, Int.tdiv (wrap32 (((0 : Nat) : Int) + (3 : Nat))) 2⟩ = .ok l ∧
      algorithmC32.rightLoop [-5, 2, 3, -4]
        (if ((3 : Nat) : Int) = INT_MAX
          then (((3 : Nat) : Int) - Int.tdiv (wrap32 (((0 : Nat) : Int) + (3 : Nat))) 2).toNat + 1
          else (((3 : Nat) : Int) - Int.tdiv (wrap32 (((0 : Nat) : Int) + (3 : Nat))) 2).toNat)
        (Int.tdiv (wrap32 (((0 : Nat) : Int) + (3 : Nat))) 2 + 1)
        ⟨0, -1, Int.tdiv (wrap32 (((0 : Nat) : Int) + (3 : Nat))) 2 + 1⟩ = .ok r ∧
      (∀ M, IsMaxEndingAt [-5, 2, 3, -4] 0 ((0 + 3) / 2) M →
        (0 ≤ M → l.max = M ∧ ((0 : Nat) : Int) ≤ l.idx ∧
          l.idx ≤ Int.tdiv (wrap32 (((0 : Nat) : Int) + (3 : Nat))) 2 ∧
          rangeSum [-5, 2, 3, -4] l.idx.toNat ((0 + 3) / 2) = M) ∧
        (M < 0 → l.max = -1 ∧
          l.idx = Int.tdiv (wrap32 (((0 : Nat) : Int) + (3 : Nat))) 2)) ∧
      (∀ M, IsMaxStartingAt [-5, 2, 3, -4] ((0 + 3) / 2 + 1) 3 M →
        (0 ≤ M → r.max = M ∧
          Int.tdiv (wrap32 (((0 : Nat) : Int) + (3 : Nat))) 2 + 1 ≤ r.idx ∧
          r.idx ≤ (3 : Nat) ∧
          rangeSum [-5, 2, 3, -4] ((0 + 3) / 2 + 1) r.idx.toNat = M) ∧
        (M < 0 → r.max = -1 ∧
          r.idx = Int.tdiv (wrap32 (((0 : Nat) : Int) + (3 : Nat))) 2 + 1)) :=
  ⟨by decide, by decide, by decide, by decide,
    crossing_scans32 [-5, 2, 3, -4] 0 3 (by decide) (by decide) (by decide) (by decide)⟩

/-- On `[-5, 1]` nothing overflows and the first scan in `int` arithmetic ends as
in exact arithmetic, with `leftMax = -1`. -/
theorem left_scan_keeps_minus_one32 :
    algorithmC32.leftLoop [-5, 1] (Int.tdiv (wrap32 (0 + 1)) 2 - 0 + 1).toNat
        (Int.tdiv (wrap32 (0 + 1)) 2) ⟨0, -1, Int.tdiv (wrap32 (0 + 1)) 2⟩
      = .ok ⟨-5, -1, 0⟩ := by
  decide

end MaxSubArray
